import Mathlib

/-!
forest-go: fields (descriptors, qualified values), stores and nodes.

A shallow embedding of `fields/descriptors.go`, `fields/qualifieds.go`,
`store.go` and `disk_store.go`.  Go functions that return `(value, error)` become functions into
`Result`, which also records a run-time panic (a slice expression out of
range).  Byte slices keep their capacity, because `s[:n]` in Go is checked
against `cap(s)`, not `len(s)`.

The primitive codec (`genericType`, `ContentLength`, `Blob`, `UnmarshalAll`,
`MarshalAllInto`, ...) and the node types are defined in other files of the
package than the four embedded here; the constants and tables of the codec are
collected in `Primitives`, and the functions are modelled from the
specification, each marked as such.
-/

namespace Forest

/-! ## Go values -/

/-- One octet. -/
abbrev Byte := Fin 256

/-- Bytes of an ASCII text. -/
def textBytes (s : String) : List Byte :=
  s.toList.map fun c => ⟨c.toNat % 256, Nat.mod_lt _ (by decide)⟩

/-- Error values returned by the library (`fmt.Errorf` in the source), by kind. -/
inductive Error where
  /-- NewContentLength: the size cannot be represented. -/
  | lengthOutOfRange (size : Int)
  /-- Decoding met a type code outside the enumeration. -/
  | unrecognizedType (code : Nat)
  /-- Fewer bytes available than a fixed-width field needs. -/
  | truncatedInput
  /-- The text "Descriptor length %d does not match value length %d". -/
  | lengthMismatch (declared actual : Nat)
  /-- An error produced by a collaborator outside the embedded files. -/
  | other (code : Nat)
  /-- An error made of a fixed text, `fmt.Errorf("...")`. -/
  | message (text : String)
  /-- An error that wraps another, `fmt.Errorf("...: %v", err)`. -/
  | wrapped (text : String) (cause : Error)
  deriving DecidableEq, Repr

/-- Outcome of a Go call: a returned value, a returned non-nil `error`, or a
run-time panic. -/
inductive Result (α : Type) where
  | ok (a : α)
  | error (e : Error)
  | panic
  deriving DecidableEq, Repr

/-- A Go `[]byte`: the `len` visible bytes and the bytes of the backing array
between `len` and `cap`. -/
structure ByteSlice where
  data : List Byte
  spare : List Byte
  deriving DecidableEq, Repr

namespace ByteSlice

def len (s : ByteSlice) : Nat := s.data.length

def cap (s : ByteSlice) : Nat := s.data.length + s.spare.length

/-- A slice whose capacity equals its length (a literal, or a copy). -/
def ofList (l : List Byte) : ByteSlice := ⟨l, []⟩

/-- Go `s[n:]`: panics unless `n ≤ len(s)`. -/
def sliceFrom (s : ByteSlice) (n : Nat) : Result ByteSlice :=
  if n ≤ s.len then .ok ⟨s.data.drop n, s.spare⟩ else .panic

/-- Go `s[:n]`: panics unless `n ≤ cap(s)`; for `len(s) < n ≤ cap(s)` the result
extends into the backing array. -/
def sliceTo (s : ByteSlice) (n : Nat) : Result ByteSlice :=
  if n ≤ s.cap then .ok ⟨(s.data ++ s.spare).take n, (s.data ++ s.spare).drop n⟩ else .panic

end ByteSlice

/-! ## The primitive codec -/

/-- The four type-enumeration families: `HashType`, `ContentType`, `KeyType`,
`SignatureType`. -/
inductive Family where
  | hash
  | content
  | key
  | signature
  deriving DecidableEq, Repr

/-- Modelled from the spec: the constants and tables of the primitive codec that
the embedded files use but do not define.  `sizeofgenericType` and
`sizeofContentLength` are the fixed widths of a type code and of a
`ContentLength`; `validType` is the closed enumeration of each family;
`HashTypeNullHash`, `ContentTypeUTF8String` and `ContentTypeJSON` are the codes
of the three type constants the embedded files name;
`typeMarshalText` its text tokens; `blobMarshalText` the text encoding of a
`Blob`; `DescriptorValidate` the `Validate` method of the descriptors. -/
structure Primitives where
  sizeofgenericType : Nat
  sizeofContentLength : Nat
  validType : Family → Nat → Bool
  HashTypeNullHash : Nat
  ContentTypeUTF8String : Nat
  ContentTypeJSON : Nat
  typeMarshalText : Family → Nat → Except Error (List Byte)
  blobMarshalText : List Byte → Except Error (List Byte)
  DescriptorValidate : Family → Nat → Nat → Option Error

/-- Modelled from the spec: fixed-width binary code of an unsigned value, most
significant byte first, `w` bytes wide. -/
def encodeFixed : Nat → Nat → List Byte
  | 0, _ => []
  | w + 1, n => encodeFixed w (n / 256) ++ [⟨n % 256, Nat.mod_lt _ (by decide)⟩]

/-- Modelled from the spec: the value of a fixed-width binary code. -/
def decodeFixed (bs : List Byte) : Nat :=
  bs.foldl (fun acc b => acc * 256 + b.val) 0

namespace Primitives

/-- Modelled from the spec: `MaxContentLength`, the largest length the fixed
width can represent. -/
def MaxContentLength (P : Primitives) : Nat := 256 ^ P.sizeofContentLength - 1

/-- The constant `sizeofDescriptor = sizeofgenericType + sizeofContentLength`. -/
def sizeofDescriptor (P : Primitives) : Nat := P.sizeofgenericType + P.sizeofContentLength

/-- The constant `minSizeofQualified = sizeofDescriptor`. -/
def minSizeofQualified (P : Primitives) : Nat := P.sizeofDescriptor

end Primitives

/-- Modelled from the spec: `NewContentLength`; a value outside the range of a
`ContentLength` fails with a range error. -/
def NewContentLength (P : Primitives) (size : Int) : Result Nat :=
  if size < 0 ∨ size > (P.MaxContentLength : Int) then .error (.lengthOutOfRange size)
  else .ok size.toNat

/-- A Go value that marshals itself to binary and back, seen as a field of an
enclosing record `σ` (the source passes pointers to the fields):
`BidirectionalBinaryMarshaler`. -/
structure BidirectionalBinaryMarshaler (σ : Type) where
  MarshalBinary : σ → Result (List Byte)
  UnmarshalBinary : ByteSlice → σ → Result σ
  BytesConsumed : σ → Nat

/-- Modelled from the spec: `MarshalAllInto`; the binary forms are written to the
buffer one after the other, the first error stops. -/
def MarshalAllInto {σ : Type} (buf : List Byte) (s : σ) :
    List (BidirectionalBinaryMarshaler σ) → Result (List Byte)
  | [] => .ok buf
  | m :: ms =>
    match m.MarshalBinary s with
    | .ok b => MarshalAllInto (buf ++ b) s ms
    | .error e => .error e
    | .panic => .panic

/-- Modelled from the spec: `UnmarshalAll`; each unmarshaler decodes from the
front of the input and the bytes it consumed are dropped; the unused remainder
is returned. -/
def UnmarshalAll {σ : Type} (b : ByteSlice) (s : σ) :
    List (BidirectionalBinaryMarshaler σ) → Result (ByteSlice × σ)
  | [] => .ok (b, s)
  | u :: us =>
    match u.UnmarshalBinary b s with
    | .ok s1 =>
      match b.sliceFrom (u.BytesConsumed s1) with
      | .ok b1 => UnmarshalAll b1 s1 us
      | .error e => .error e
      | .panic => .panic
    | .error e => .error e
    | .panic => .panic

/-- Modelled from the spec: `TotalBytesConsumed`. -/
def TotalBytesConsumed {σ : Type} (s : σ) (ms : List (BidirectionalBinaryMarshaler σ)) : Nat :=
  (ms.map fun m => m.BytesConsumed s).sum

/-! ## descriptors.go -/

/-- The structs `HashDescriptor`, `ContentDescriptor`, `SignatureDescriptor` and
`KeyDescriptor`, which differ only in the family of `Type`. -/
structure Descriptor (f : Family) where
  Typ : Nat
  Length : Nat
  deriving DecidableEq, Repr

abbrev HashDescriptor := Descriptor Family.hash
abbrev ContentDescriptor := Descriptor Family.content
abbrev SignatureDescriptor := Descriptor Family.signature
abbrev KeyDescriptor := Descriptor Family.key

namespace Descriptor

/-- Modelled from the spec: the `Type` field as a marshaler: a fixed-width code;
decoding fails on short input and on a code outside the enumeration. -/
def typeField (P : Primitives) (f : Family) : BidirectionalBinaryMarshaler (Descriptor f) where
  MarshalBinary d := .ok (encodeFixed P.sizeofgenericType d.Typ)
  UnmarshalBinary b d :=
    if b.len < P.sizeofgenericType then .error .truncatedInput
    else
      let t := decodeFixed (b.data.take P.sizeofgenericType)
      if P.validType f t then .ok { d with Typ := t } else .error (.unrecognizedType t)
  BytesConsumed _ := P.sizeofgenericType

/-- Modelled from the spec: the `Length` field as a marshaler: a fixed-width
unsigned value; decoding fails on short input. -/
def lengthField (P : Primitives) (f : Family) : BidirectionalBinaryMarshaler (Descriptor f) where
  MarshalBinary d := .ok (encodeFixed P.sizeofContentLength d.Length)
  UnmarshalBinary b d :=
    if b.len < P.sizeofContentLength then .error .truncatedInput
    else .ok { d with Length := decodeFixed (b.data.take P.sizeofContentLength) }
  BytesConsumed _ := P.sizeofContentLength

/-- `NewHashDescriptor` (and `NewContentDescriptor`, `NewSignatureDescriptor`,
`NewKeyDescriptor`). -/
def New (P : Primitives) (f : Family) (t : Nat) (length : Int) : Result (Descriptor f) :=
  match NewContentLength P length with
  | .ok cLength => .ok ⟨t, cLength⟩
  | .error e => .error e
  | .panic => .panic

/-- `SerializationOrder`: `&d.Type`, then `&d.Length`. -/
def SerializationOrder (P : Primitives) (f : Family) :
    List (BidirectionalBinaryMarshaler (Descriptor f)) :=
  [typeField P f, lengthField P f]

/-- `Equals`: `d.Type.Equals(&other.Type) && d.Length.Equals(&other.Length)`. -/
def Equals {f : Family} (d other : Descriptor f) : Bool :=
  d.Typ == other.Typ && d.Length == other.Length

/-- Modelled from the spec: `Validate` of a descriptor, a table of the primitive
codec. -/
def Validate (P : Primitives) {f : Family} (d : Descriptor f) : Option Error :=
  P.DescriptorValidate f d.Typ d.Length

end Descriptor

/-- Modelled from the spec: `Validate` of a descriptor is part of the re-check of
the length invariant, whose only failure is a length mismatch; a descriptor that
a descriptor constructor returned validates. -/
def Primitives.ValidatesConstructed (P : Primitives) : Prop :=
  ∀ (f : Family) (t : Nat) (length : Int) (d : Descriptor f),
    Descriptor.New P f t length = .ok d → d.Validate P = none

/-! ## qualifieds.go -/

/-- The structs `QualifiedHash`, `QualifiedContent`, `QualifiedKey` and
`QualifiedSignature`: a descriptor and a `Blob`. -/
structure Qualified (f : Family) where
  Descriptor : Forest.Descriptor f
  Blob : List Byte
  deriving DecidableEq, Repr

abbrev QualifiedHash := Qualified Family.hash
abbrev QualifiedContent := Qualified Family.content
abbrev QualifiedKey := Qualified Family.key
abbrev QualifiedSignature := Qualified Family.signature

namespace Qualified

/-- A marshaler of the descriptor, seen from the qualified value that contains
it (`&q.Descriptor.Type`, `&q.Descriptor.Length`). -/
def ofDescriptor {f : Family} (m : BidirectionalBinaryMarshaler (Forest.Descriptor f)) :
    BidirectionalBinaryMarshaler (Qualified f) where
  MarshalBinary q := m.MarshalBinary q.Descriptor
  UnmarshalBinary b q :=
    match m.UnmarshalBinary b q.Descriptor with
    | .ok d => .ok { q with Descriptor := d }
    | .error e => .error e
    | .panic => .panic
  BytesConsumed q := m.BytesConsumed q.Descriptor

/-- Modelled from the spec: the `Blob` field as a marshaler: raw bytes; decoding
takes the whole slice it is given. -/
def blobField (f : Family) : BidirectionalBinaryMarshaler (Qualified f) where
  MarshalBinary q := .ok q.Blob
  UnmarshalBinary b q := .ok { q with Blob := b.data }
  BytesConsumed q := q.Blob.length

/-- `NewQualifiedHash`, `NewQualifiedContent`, `NewQualifiedKey`,
`NewQualifiedSignature`. -/
def New (P : Primitives) (f : Family) (t : Nat) (content : List Byte) : Result (Qualified f) :=
  match Forest.Descriptor.New P f t (content.length : Int) with
  | .ok hd => .ok ⟨hd, content⟩
  | .error e => .error e
  | .panic => .panic

/-- `SerializationOrder`: `append(q.Descriptor.SerializationOrder(), &q.Blob)`. -/
def SerializationOrder (P : Primitives) (f : Family) :
    List (BidirectionalBinaryMarshaler (Qualified f)) :=
  (Forest.Descriptor.SerializationOrder P f).map ofDescriptor ++ [blobField f]

/-- `UnmarshalBinary`: the descriptor is decoded by `UnmarshalAll`, then the blob
is read from `unused[:q.Descriptor.Length]`.  The receiver `q` is overwritten. -/
def UnmarshalBinary (P : Primitives) {f : Family} (q : Qualified f) (b : ByteSlice) :
    Result (Qualified f) :=
  match UnmarshalAll b q.Descriptor (Forest.Descriptor.SerializationOrder P f) with
  | .error e => .error e
  | .panic => .panic
  | .ok (unused, d) =>
    match unused.sliceTo d.Length with
    | .error e => .error e
    | .panic => .panic
    | .ok s => (blobField f).UnmarshalBinary s { q with Descriptor := d }

/-- `MarshalBinary`: `MarshalAllInto` a fresh buffer, in `SerializationOrder`. -/
def MarshalBinary (P : Primitives) {f : Family} (q : Qualified f) : Result (List Byte) :=
  MarshalAllInto [] q (SerializationOrder P f)

/-- `BytesConsumed`. -/
def BytesConsumed (P : Primitives) {f : Family} (q : Qualified f) : Nat :=
  TotalBytesConsumed q (SerializationOrder P f)

/-- `Equals`: `q.Descriptor.Equals(&other.Descriptor) && q.Blob.Equals(&other.Blob)`. -/
def Equals {f : Family} (q other : Qualified f) : Bool :=
  q.Descriptor.Equals other.Descriptor && q.Blob == other.Blob

/-- `Validate`: the descriptor's `Validate`, then the comparison of
`int(q.Descriptor.Length)` with `len(q.Blob)`. -/
def Validate (P : Primitives) {f : Family} (q : Qualified f) : Option Error :=
  match q.Descriptor.Validate P with
  | some err => some err
  | none =>
    if q.Descriptor.Length ≠ q.Blob.length then
      some (.lengthMismatch q.Descriptor.Length q.Blob.length)
    else none

end Qualified

/-- `NullHash()`. -/
def NullHash (P : Primitives) : QualifiedHash :=
  { Descriptor := { Typ := P.HashTypeNullHash, Length := 0 }, Blob := [] }

/-! ## A sample instance of the primitive tables -/

/-- A sample instance of the tables: one-byte type codes, two-byte lengths, codes
0 and 1 recognised for hashes and 1 and 2 for the other families. -/
def samplePrimitives : Primitives where
  sizeofgenericType := 1
  sizeofContentLength := 2
  validType f t :=
    match f with
    | .hash => t == 0 || t == 1
    | _ => t == 1 || t == 2
  HashTypeNullHash := 0
  ContentTypeUTF8String := 1
  ContentTypeJSON := 2
  typeMarshalText f t :=
    if (match f with
        | .hash => t == 0 || t == 1
        | _ => t == 1 || t == 2) then .ok (textBytes "T" ++ [⟨48 + t % 10, by omega⟩])
    else .error (.unrecognizedType t)
  blobMarshalText b := .ok b
  DescriptorValidate f t _ :=
    if (match f with
        | .hash => t == 0 || t == 1
        | _ => t == 1 || t == 2) then none
    else some (.unrecognizedType t)

/-- The sample tables with a `Validate` of descriptors that re-checks the range of
the length only. -/
def rangePrimitives : Primitives :=
  { samplePrimitives with
    DescriptorValidate := fun _ _ n =>
      if n ≤ 65535 then none else some (.lengthOutOfRange (n : Int)) }

/-- Binary form of a descriptor: the type code, then the length. -/
def Descriptor.binaryForm (P : Primitives) {f : Family} (d : Descriptor f) : List Byte :=
  encodeFixed P.sizeofgenericType d.Typ ++ encodeFixed P.sizeofContentLength d.Length

/-- A descriptor can be written in the fixed widths and read back. -/
def Descriptor.Encodable (P : Primitives) {f : Family} (d : Descriptor f) : Prop :=
  P.validType f d.Typ = true ∧ d.Typ < 256 ^ P.sizeofgenericType ∧
    d.Length ≤ P.MaxContentLength

instance (P : Primitives) {f : Family} (d : Descriptor f) : Decidable (d.Encodable P) := by
  unfold Descriptor.Encodable; exact inferInstance

/-! ## Text forms (descriptors.go, qualifieds.go) -/

/-- Text, as Go holds it: a sequence of bytes (`[]byte` or `string`). -/
abbrev Text := List Byte

/-- Modelled from the spec: `ContentLength.MarshalText`, the length in decimal. -/
def lengthMarshalText (n : Nat) : Except Error Text := .ok (textBytes (Nat.repr n))

/-- `marshalTextDescriptor`: the type's text, `"_"`, the length's text; the
arguments are the outcomes of the two `MarshalText` calls, the first error
wins. -/
def marshalTextDescriptor (descriptorType length : Except Error Text) : Except Error Text :=
  match descriptorType with
  | .error err => .error err
  | .ok b =>
    match length with
    | .error err => .error err
    | .ok b2 => .ok (b ++ textBytes "_" ++ b2)

/-- `marshalTextQualified`: the first text, `"__"`, the second text. -/
def marshalTextQualified (first second : Except Error Text) : Except Error Text :=
  match first with
  | .error err => .error err
  | .ok b =>
    match second with
    | .error err => .error err
    | .ok b2 => .ok (b ++ textBytes "__" ++ b2)

/-- `MarshalText` of the four descriptors. -/
def Descriptor.MarshalText (P : Primitives) {f : Family} (d : Descriptor f) : Except Error Text :=
  marshalTextDescriptor (P.typeMarshalText f d.Typ) (lengthMarshalText d.Length)

/-- `MarshalText` of the four qualified values; `QualifiedContent` of type
UTF-8 string or JSON writes the raw blob after the descriptor text. -/
def Qualified.MarshalText (P : Primitives) {f : Family} (q : Qualified f) : Except Error Text :=
  match f with
  | .content =>
    if q.Descriptor.Typ = P.ContentTypeUTF8String ∨ q.Descriptor.Typ = P.ContentTypeJSON then
      match q.Descriptor.MarshalText P with
      | .error err => .error err
      | .ok descText => .ok (descText ++ q.Blob)
    else marshalTextQualified (q.Descriptor.MarshalText P) (P.blobMarshalText q.Blob)
  | _ => marshalTextQualified (q.Descriptor.MarshalText P) (P.blobMarshalText q.Blob)

/-- `QualifiedHash.MarshalString`: the text form as a string. -/
def Qualified.MarshalString (P : Primitives) (q : QualifiedHash) : Except Error Text :=
  q.MarshalText P

/-! ## store.go -/

/-- Outcome of a call on a store: it returns (its results and the state it
leaves behind), or it panics. -/
inductive Outcome (α : Type) where
  | returned (a : α)
  | panicked
  deriving DecidableEq, Repr

/-- The interface `Node`, as far as the stores use it: a node has an ID.  A value
of the interface type is an `Option N`, `none` being the nil interface. -/
class Node (N : Type) where
  ID : N → QualifiedHash

/-- The three results of `Get`: `(Node, bool, error)`. -/
structure GetResult (N : Type) where
  node : Option N
  has : Bool
  err : Option Error
  deriving DecidableEq, Repr

/-- The interface `Store`, over the type `σ` of the states of an implementation.
Every method returns its results together with the state it leaves.  `CopyInto`
receives the other store as that store's `Add` method and state. -/
structure Store (N σ : Type) where
  Size : σ → Outcome (σ × Nat × Option Error)
  CopyInto : (τ : Type) → (τ → Option N → Outcome (τ × Option Error)) → σ → τ →
    Outcome ((σ × τ) × Option Error)
  Get : σ → QualifiedHash → Outcome (σ × GetResult N)
  Add : σ → Option N → Outcome (σ × Option Error)

/-- `MemoryStore`: `Items map[string]Node`, as the list of its entries; the keys
of a map are pairwise distinct. -/
structure MemoryStore (N : Type) where
  Items : List (Text × Option N)
  deriving DecidableEq, Repr

namespace MemoryStore

variable {N : Type}

/-- Go `m[k] = v`. -/
def assign (items : List (Text × Option N)) (k : Text) (v : Option N) :
    List (Text × Option N) :=
  items.filter (fun e => e.1 != k) ++ [(k, v)]

/-- `NewMemoryStore`. -/
def New : MemoryStore N := ⟨[]⟩

/-- `Size`: `len(m.Items), nil`. -/
def Size (m : MemoryStore N) : Nat × Option Error := (m.Items.length, none)

/-- `GetID`: `item, has := m.Items[id]`. -/
def GetID (m : MemoryStore N) (id : Text) : GetResult N :=
  match m.Items.lookup id with
  | some item => ⟨item, true, none⟩
  | none => ⟨none, false, none⟩

/-- `Get`. -/
def Get (P : Primitives) (m : MemoryStore N) (id : QualifiedHash) : GetResult N :=
  match Qualified.MarshalString P id with
  | .error err => ⟨none, false, some err⟩
  | .ok idString => m.GetID idString

/-- `AddID`: nothing happens when the key is present. -/
def AddID (m : MemoryStore N) (id : Text) (node : Option N) : MemoryStore N × Option Error :=
  if (m.GetID id).has then (m, none)
  else (⟨assign m.Items id node⟩, none)

/-- `Add`; calling `ID()` on the nil interface panics. -/
def Add [Node N] (P : Primitives) (m : MemoryStore N) (node : Option N) :
    Outcome (MemoryStore N × Option Error) :=
  match node with
  | none => .panicked
  | some n =>
    match Qualified.MarshalString P (Node.ID n) with
    | .error err => .returned (m, some err)
    | .ok id => .returned (m.AddID id node)

/-- The loop of `CopyInto` over the entries still to visit, in the order the
iteration over the map takes. -/
def copyLoop {τ : Type} (add : τ → Option N → Outcome (τ × Option Error)) :
    List (Text × Option N) → τ → Outcome (τ × Option Error)
  | [], other => .returned (other, none)
  | (_, node) :: rest, other =>
    match add other node with
    | .panicked => .panicked
    | .returned (other1, some err) => .returned (other1, some err)
    | .returned (other1, none) => copyLoop add rest other1

/-- `CopyInto`: `other.Add` on every node, the first error returns. -/
def CopyInto (m : MemoryStore N) (τ : Type) (add : τ → Option N → Outcome (τ × Option Error))
    (other : τ) : Outcome ((MemoryStore N × τ) × Option Error) :=
  match copyLoop add m.Items other with
  | .panicked => .panicked
  | .returned (other1, err) => .returned ((m, other1), err)

/-- A `MemoryStore` as a `Store`. -/
def asStore [Node N] (P : Primitives) : Store N (MemoryStore N) where
  Size m := .returned (m, m.Size)
  CopyInto τ add m other := m.CopyInto τ add other
  Get m id := .returned (m, m.Get P id)
  Add m node := m.Add P node

end MemoryStore

/-- `CacheStore`: the states of the two tiers.  The method tables of the tiers,
fixed when the store is built, are passed to each method as `cacheStore` and
`backStore`. -/
structure CacheStore (σc σb : Type) where
  Cache : σc
  Back : σb
  deriving DecidableEq, Repr

/-- What `NewCacheStore` returns, `(*CacheStore, error)`, and the states in which
it leaves the two stores it was given. -/
structure NewCacheStoreResult (σc σb : Type) where
  store : Option (CacheStore σc σb)
  err : Option Error
  cache : σc
  back : σb
  deriving DecidableEq, Repr

/-- `NewCacheStore`. -/
def NewCacheStore {N σc σb : Type} (cacheStore : Store N σc) (backStore : Store N σb)
    (cache : σc) (back : σb) : Outcome (NewCacheStoreResult σc σb) :=
  match cacheStore.CopyInto σb backStore.Add cache back with
  | .panicked => .panicked
  | .returned ((cache1, back1), some err) => .returned ⟨none, some err, cache1, back1⟩
  | .returned ((cache1, back1), none) =>
    .returned ⟨some ⟨cache1, back1⟩, none, cache1, back1⟩

namespace CacheStore

variable {N σc σb : Type}

/-- `Size`: the size of the Back store. -/
def Size (backStore : Store N σb) (m : CacheStore σc σb) :
    Outcome (CacheStore σc σb × Nat × Option Error) :=
  match backStore.Size m.Back with
  | .panicked => .panicked
  | .returned (back1, r) => .returned ({ m with Back := back1 }, r)

/-- `Get`: the Cache, then the Back store, whose hit is added to the Cache. -/
def Get (cacheStore : Store N σc) (backStore : Store N σb) (m : CacheStore σc σb)
    (id : QualifiedHash) : Outcome (CacheStore σc σb × GetResult N) :=
  match cacheStore.Get m.Cache id with
  | .panicked => .panicked
  | .returned (cache1, r) =>
    if r.err ≠ none then .returned (⟨cache1, m.Back⟩, ⟨none, false, r.err⟩)
    else if r.has then .returned (⟨cache1, m.Back⟩, ⟨r.node, r.has, none⟩)
    else
      match backStore.Get m.Back id with
      | .panicked => .panicked
      | .returned (back1, r2) =>
        if r2.err ≠ none then .returned (⟨cache1, back1⟩, ⟨none, false, r2.err⟩)
        else if r2.has then
          match cacheStore.Add cache1 r2.node with
          | .panicked => .panicked
          | .returned (cache2, some err) => .returned (⟨cache2, back1⟩, ⟨none, false, some err⟩)
          | .returned (cache2, none) => .returned (⟨cache2, back1⟩, ⟨r2.node, r2.has, none⟩)
        else .returned (⟨cache1, back1⟩, ⟨none, false, none⟩)

/-- `CopyInto`: that of the Back store. -/
def CopyInto (backStore : Store N σb) (m : CacheStore σc σb) (τ : Type)
    (add : τ → Option N → Outcome (τ × Option Error)) (other : τ) :
    Outcome ((CacheStore σc σb × τ) × Option Error) :=
  match backStore.CopyInto τ add m.Back other with
  | .panicked => .panicked
  | .returned ((back1, other1), err) => .returned ((⟨m.Cache, back1⟩, other1), err)

/-- `Add`: the Back store first, the Cache only when that succeeded. -/
def Add (cacheStore : Store N σc) (backStore : Store N σb) (m : CacheStore σc σb)
    (node : Option N) : Outcome (CacheStore σc σb × Option Error) :=
  match backStore.Add m.Back node with
  | .panicked => .panicked
  | .returned (back1, some err) => .returned (⟨m.Cache, back1⟩, some err)
  | .returned (back1, none) =>
    match cacheStore.Add m.Cache node with
    | .panicked => .panicked
    | .returned (cache1, some err) => .returned (⟨cache1, back1⟩, some err)
    | .returned (cache1, none) => .returned (⟨cache1, back1⟩, none)

/-- A `CacheStore` as a `Store`. -/
def asStore (cacheStore : Store N σc) (backStore : Store N σb) : Store N (CacheStore σc σb) where
  Size m := Size backStore m
  CopyInto τ add m other := CopyInto backStore m τ add other
  Get m id := Get cacheStore backStore m id
  Add m node := Add cacheStore backStore m node

end CacheStore

/-- A sample node type: an ID and a body. -/
structure SampleNode where
  id : QualifiedHash
  body : Nat
  deriving DecidableEq, Repr

instance : Node SampleNode where
  ID n := n.id

/-! ## The node model (community) -/

/-- Binary form of a qualified value: the descriptor, then the blob. -/
def Qualified.binaryForm (P : Primitives) {f : Family} (q : Qualified f) : List Byte :=
  q.Descriptor.binaryForm P ++ q.Blob

/-- A qualified value that keeps the length invariant and whose descriptor can be
written in the fixed widths and read back. -/
def Qualified.WellFormed (P : Primitives) {f : Family} (q : Qualified f) : Prop :=
  q.Blob.length = q.Descriptor.Length ∧ q.Descriptor.Encodable P

instance (P : Primitives) {f : Family} (q : Qualified f) : Decidable (q.WellFormed P) := by
  unfold Qualified.WellFormed; exact inferInstance

/-- A qualified value as one marshaler of the record `σ` that holds it: its
`MarshalBinary`, `UnmarshalBinary` and `BytesConsumed` of qualifieds.go. -/
def Qualified.asField (P : Primitives) {f : Family} {σ : Type} (get : σ → Qualified f)
    (set : σ → Qualified f → σ) : BidirectionalBinaryMarshaler σ where
  MarshalBinary s := (get s).MarshalBinary P
  UnmarshalBinary b s :=
    match Qualified.UnmarshalBinary P (get s) b with
    | .ok q => .ok (set s q)
    | .error e => .error e
    | .panic => .panic
  BytesConsumed s := (get s).BytesConsumed P

/-- Modelled from the spec: the signer capability, an external collaborator that
supplies `Sign(bytes) -> QualifiedSignature` and `Hash(bytes) -> QualifiedHash`. -/
structure Signer where
  Sign : List Byte → Result QualifiedSignature
  Hash : List Byte → Result QualifiedHash

/-- Modelled from the spec: the node `Identity`: display name, public key
material, metadata, with its ID and signature. -/
structure Identity where
  Name : QualifiedContent
  PublicKey : QualifiedKey
  Metadata : QualifiedContent
  id : QualifiedHash
  Signature : QualifiedSignature
  deriving DecidableEq, Repr

/-- Modelled from the spec: `Identity.ID`, the stored content address. -/
def Identity.ID (i : Identity) : QualifiedHash := i.id

/-- Modelled from the spec: the node `Community`: name, metadata, reference to
the authoring identity, with its ID and signature. -/
structure Community where
  Name : QualifiedContent
  Metadata : QualifiedContent
  Author : QualifiedHash
  id : QualifiedHash
  Signature : QualifiedSignature
  deriving DecidableEq, Repr

namespace Community

/-- Modelled from the spec: `ID`, the stored content address. -/
def ID (c : Community) : QualifiedHash := c.id

/-- Modelled from the spec: the fields of the canonical payload, in the declared
order name, metadata, author. -/
def signedOrder (P : Primitives) : List (BidirectionalBinaryMarshaler Community) :=
  [Qualified.asField P (fun c => c.Name) (fun c q => { c with Name := q }),
   Qualified.asField P (fun c => c.Metadata) (fun c q => { c with Metadata := q }),
   Qualified.asField P (fun c => c.Author) (fun c q => { c with Author := q })]

/-- Modelled from the spec: the serialized form holds the payload fields and,
outside the byte range that is hashed and signed, the ID and the signature; the
spec leaves their place open, here they follow the payload. -/
def SerializationOrder (P : Primitives) : List (BidirectionalBinaryMarshaler Community) :=
  signedOrder P ++
  [Qualified.asField P (fun c => c.id) (fun c q => { c with id := q }),
   Qualified.asField P (fun c => c.Signature) (fun c q => { c with Signature := q })]

/-- Modelled from the spec: the canonical payload, the serialization of every
field except the ID and the signature. -/
def MarshalSignedData (P : Primitives) (c : Community) : Result (List Byte) :=
  MarshalAllInto [] c (signedOrder P)

/-- Modelled from the spec: `MarshalBinary` of a community. -/
def MarshalBinary (P : Primitives) (c : Community) : Result (List Byte) :=
  MarshalAllInto [] c (SerializationOrder P)

/-- Modelled from the spec: `Equals`, field-wise structural equality. -/
def Equals (c other : Community) : Bool :=
  c.Name.Equals other.Name && c.Metadata.Equals other.Metadata &&
    c.Author.Equals other.Author && c.id.Equals other.id &&
    c.Signature.Equals other.Signature

/-- The zero value of the struct, into which `UnmarshalCommunity` decodes. -/
def zero : Community :=
  ⟨⟨⟨0, 0⟩, []⟩, ⟨⟨0, 0⟩, []⟩, ⟨⟨0, 0⟩, []⟩, ⟨⟨0, 0⟩, []⟩, ⟨⟨0, 0⟩, []⟩⟩

end Community

/-- Modelled from the spec: `UnmarshalCommunity`, the fields decoded one after
the other from the input. -/
def UnmarshalCommunity (P : Primitives) (b : ByteSlice) : Result Community :=
  match UnmarshalAll b Community.zero (Community.SerializationOrder P) with
  | .ok (_, c) => .ok c
  | .error e => .error e
  | .panic => .panic

/-- Modelled from the spec: what `As(identity, signer)` returns. -/
structure Builder where
  User : Identity
  Signer : Forest.Signer

/-- Modelled from the spec: `As`. -/
def As (identity : Identity) (signer : Signer) : Builder := ⟨identity, signer⟩

/-- Modelled from the spec: `NewCommunity`: the fields are assembled, the
canonical payload is computed, the ID and the signature are computed from it. -/
def Builder.NewCommunity (P : Primitives) (b : Builder) (name metadata : QualifiedContent) :
    Result Community :=
  let c : Community := { Community.zero with
    Name := name, Metadata := metadata, Author := b.User.ID }
  match c.MarshalSignedData P with
  | .error e => .error e
  | .panic => .panic
  | .ok payload =>
    match b.Signer.Hash payload with
    | .error e => .error e
    | .panic => .panic
    | .ok id =>
      match b.Signer.Sign payload with
      | .error e => .error e
      | .panic => .panic
      | .ok signature => .ok { c with id := id, Signature := signature }

/-- A sample signer: the digest is the length and the byte sum of the payload,
the signature its first bytes. -/
def sampleSigner : Signer where
  Sign payload := .ok ⟨⟨1, (payload.take 4).length⟩, payload.take 4⟩
  Hash payload :=
    .ok ⟨⟨1, 2⟩, [⟨payload.length % 256, Nat.mod_lt _ (by decide)⟩,
      ⟨(payload.map (fun b => b.val)).sum % 256, Nat.mod_lt _ (by decide)⟩]⟩

/-- A sample identity. -/
def sampleIdentity : Identity :=
  ⟨⟨⟨1, 3⟩, [65, 100, 97]⟩, ⟨⟨1, 2⟩, [1, 2]⟩, ⟨⟨1, 0⟩, []⟩, ⟨⟨1, 2⟩, [9, 9]⟩, ⟨⟨1, 1⟩, [5]⟩⟩

/-- The community the sample signer builds for the sample identity from the
name "Name" and empty metadata. -/
def sampleCommunity : Community :=
  ⟨⟨⟨1, 4⟩, [78, 97, 109, 101]⟩, ⟨⟨1, 0⟩, []⟩, ⟨⟨1, 2⟩, [9, 9]⟩,
    ⟨⟨1, 2⟩, [15, 156]⟩, ⟨⟨1, 4⟩, [1, 0, 4, 78]⟩⟩

/-- A sample node, with a well-formed ID. -/
def sampleNode : SampleNode := ⟨⟨⟨1, 2⟩, [3, 4]⟩, 7⟩

/-- A memory store that holds the sample node under the text of its ID. -/
def sampleStore : MemoryStore SampleNode :=
  ⟨[(textBytes "T1_2__" ++ [3, 4], some sampleNode)]⟩

/-! ## Validation of a community -/

/-- Modelled from the spec: `ValidateID`: the hash is recomputed from the current
fields of the node, with the hash type of its ID, and compared with the expected
ID.  `hash` is the hash function of the library, `Hash(HashType, bytes)`.  The
result `.ok b` stands for `(b, nil)`, an error for `(false, err)`. -/
def ValidateID (P : Primitives) (hash : Nat → List Byte → Result QualifiedHash) (c : Community)
    (expected : QualifiedHash) : Result Bool :=
  match c.MarshalSignedData P with
  | .error e => .error e
  | .panic => .panic
  | .ok payload =>
    match hash c.ID.Descriptor.Typ payload with
    | .error e => .error e
    | .panic => .panic
    | .ok computed => .ok (expected.Equals computed)

/-- Modelled from the spec: `ValidateSignature`: the canonical payload is
recomputed and the stored signature is verified against the public key of the
identity.  `verify` is the verification of the library; what fails to decode
comes back as an error. -/
def ValidateSignature (P : Primitives)
    (verify : QualifiedKey → QualifiedSignature → List Byte → Except Error Bool)
    (c : Community) (identity : Identity) : Result Bool :=
  match c.MarshalSignedData P with
  | .error e => .error e
  | .panic => .panic
  | .ok payload =>
    match verify identity.PublicKey c.Signature payload with
    | .error e => .error e
    | .ok correct => .ok correct

/-- The hash function that the sample signer uses, for every hash type. -/
def sampleHash (_ : Nat) (payload : List Byte) : Result QualifiedHash :=
  sampleSigner.Hash payload

/-- The verification that goes with the sample signer: a signature is correct
when it is the one the signer yields for the payload. -/
def sampleVerify (_ : QualifiedKey) (signature : QualifiedSignature) (payload : List Byte) :
    Except Error Bool :=
  .ok (decide (sampleSigner.Sign payload = .ok signature))

/-! ## disk_store.go -/

/-- Modelled from the spec: the node `Reply`: references to its community and to
its conversation, content, reference to the authoring identity, with its ID and
signature. -/
structure Reply where
  CommunityID : QualifiedHash
  ConversationID : QualifiedHash
  Content : QualifiedContent
  Author : QualifiedHash
  id : QualifiedHash
  Signature : QualifiedSignature
  deriving DecidableEq, Repr

/-- A value of the interface `Node` by its dynamic type: one of the three node
types, or another implementation of the interface, of which the ID is kept. -/
inductive NodeValue where
  | identity (v : Identity)
  | community (v : Community)
  | reply (v : Reply)
  | otherKind (id : QualifiedHash)
  deriving DecidableEq, Repr

/-- The method `ID` of a node. -/
def NodeValue.ID : NodeValue → QualifiedHash
  | .identity v => v.ID
  | .community v => v.ID
  | .reply v => v.id
  | .otherKind id => id

instance : Node NodeValue where
  ID n := n.ID

/-- `DiskStore`. -/
structure DiskStore where
  RootPath : Text
  deriving DecidableEq, Repr

/-- The file system as `readNodeFromFile` uses it: `os.Open` of a path fails or
gives a file, of which `ioutil.ReadAll` fails or gives the contents. -/
abbrev FileSystem := Text → Except Error (Except Error (List Byte))

/-- `readNodeFromFile`; `unmarshal` is `UnmarshalBinaryNode`. -/
def readNodeFromFile {N : Type} (fs : FileSystem) (unmarshal : List Byte → Except Error N)
    (path : Text) : Except Error N :=
  match fs path with
  | .error err => .error (.wrapped "Failed to open node file" err)
  | .ok f =>
    match f with
    | .error err => .error (.wrapped "Failed to read file contents" err)
    | .ok nodeBytes =>
      match unmarshal nodeBytes with
      | .error err => .error (.wrapped "Failed to unmarshal node" err)
      | .ok node => .ok node

namespace DiskStore

/-- `path`; `join` is `path.Join` of the Go library. -/
def path (P : Primitives) (join : List Text → Text) (store : DiskStore) (n : NodeValue) :
    Except Error Text :=
  match Qualified.MarshalString P n.ID with
  | .error err => .error err
  | .ok id =>
    match n with
    | .identity _ => .ok (join [store.RootPath, textBytes "identities", id])
    | .community _ => .ok (join [store.RootPath, textBytes "communities", id, textBytes "community"])
    | .reply v =>
      match Qualified.MarshalString P v.CommunityID with
      | .error err => .error err
      | .ok community =>
        match Qualified.MarshalString P v.ConversationID with
        | .error err => .error err
        | .ok conversation =>
          .ok (join [store.RootPath, textBytes "communities", community, conversation, id])
    | .otherKind _ => .error (.message "Cannot determine path for node")

/-- `Get`: not implemented. -/
def Get {N : Type} (_ : DiskStore) (_ : QualifiedHash) : GetResult N :=
  ⟨none, false, some (.message "not implemented")⟩

/-- `GetReply`. -/
def GetReply {N : Type} (P : Primitives) (join : List Text → Text) (fs : FileSystem)
    (unmarshal : List Byte → Except Error N) (store : DiskStore)
    (community conversation reply : QualifiedHash) : GetResult N :=
  match Qualified.MarshalString P community with
  | .error err => ⟨none, false, some err⟩
  | .ok communityId =>
    match Qualified.MarshalString P conversation with
    | .error err => ⟨none, false, some err⟩
    | .ok conversationId =>
      match Qualified.MarshalString P reply with
      | .error err => ⟨none, false, some err⟩
      | .ok replyId =>
        match readNodeFromFile fs unmarshal
            (join [store.RootPath, textBytes "communities", communityId, conversationId,
              replyId]) with
        | .error err => ⟨none, false, some err⟩
        | .ok node => ⟨some node, true, none⟩

end DiskStore

/-- A sample of `path.Join`: the elements separated by "/". -/
def sampleJoin : List Text → Text
  | [] => []
  | [x] => x
  | x :: y :: rest => x ++ textBytes "/" ++ sampleJoin (y :: rest)

/-- A sample reply, in the community and the conversation of the two sample
IDs. -/
def sampleReply : Reply :=
  ⟨⟨⟨1, 2⟩, [3, 4]⟩, ⟨⟨1, 2⟩, [5, 6]⟩, ⟨⟨1, 2⟩, [104, 105]⟩, ⟨⟨1, 2⟩, [9, 9]⟩,
    ⟨⟨1, 1⟩, [7]⟩, ⟨⟨1, 1⟩, [5]⟩⟩

/-! ## Sequences of calls on a cache store -/

/-- Every entry of the memory store is a node stored under the text of its own
ID, as `Add` stores it. -/
def MemoryStore.WellKeyed {N : Type} [Node N] (P : Primitives) (m : MemoryStore N) : Prop :=
  ∀ k v, (k, v) ∈ m.Items → ∃ n, v = some n ∧ Qualified.MarshalString P (Node.ID n) = .ok k

/-- A call on a store through the interface: `Add(node)` or `Get(id)`. -/
inductive StoreCall (N : Type) where
  | Add (node : Option N)
  | Get (id : QualifiedHash)

/-- One call on a cache store; what is kept is the state the call leaves. -/
def CacheStore.call {N σc σb : Type} (cacheStore : Store N σc) (backStore : Store N σb)
    (m : CacheStore σc σb) : StoreCall N → Outcome (CacheStore σc σb)
  | .Add node =>
    match CacheStore.Add cacheStore backStore m node with
    | .panicked => .panicked
    | .returned (m1, _) => .returned m1
  | .Get id =>
    match CacheStore.Get cacheStore backStore m id with
    | .panicked => .panicked
    | .returned (m1, _) => .returned m1

/-- A sequence of calls on a cache store, one after the other. -/
def CacheStore.run {N σc σb : Type} (cacheStore : Store N σc) (backStore : Store N σb) :
    List (StoreCall N) → CacheStore σc σb → Outcome (CacheStore σc σb)
  | [], m => .returned m
  | c :: cs, m =>
    match CacheStore.call cacheStore backStore m c with
    | .panicked => .panicked
    | .returned m1 => CacheStore.run cacheStore backStore cs m1

/-- The two tiers are well keyed and every key of the Cache is a key of the Back
store. -/
def CacheStore.Consistent {N : Type} [Node N] (P : Primitives)
    (s : CacheStore (MemoryStore N) (MemoryStore N)) : Prop :=
  s.Cache.WellKeyed P ∧ s.Back.WellKeyed P ∧
    ∀ k, (s.Cache.GetID k).has = true → (s.Back.GetID k).has = true

/-- A second sample node, with another ID. -/
def sampleNode2 : SampleNode := ⟨⟨⟨1, 2⟩, [5, 6]⟩, 8⟩

/-- A memory store that holds the second sample node under the text of the ID of
the first. -/
def misKeyedStore : MemoryStore SampleNode :=
  ⟨[(textBytes "T1_2__" ++ [3, 4], some sampleNode2)]⟩

/-- A memory store that holds the second sample node under the text of its ID. -/
def sampleStore2 : MemoryStore SampleNode :=
  ⟨[(textBytes "T1_2__" ++ [5, 6], some sampleNode2)]⟩

/-- Sub-map: every entry of the first memory store is an entry of the second. -/
def MemoryStore.SubMap {N : Type} (c b : MemoryStore N) : Prop :=
  ∀ k v, c.Items.lookup k = some v → b.Items.lookup k = some v

/-- A node with the ID of the sample node and another body. -/
def sampleNodeTwin : SampleNode := ⟨sampleNode.id, 8⟩

/-- A memory store that holds the twin of the sample node under the text of its
ID. -/
def twinStore : MemoryStore SampleNode :=
  ⟨[(textBytes "T1_2__" ++ [3, 4], some sampleNodeTwin)]⟩

/-! ## Lemmas on the fixed-width code -/

theorem encodeFixed_length (w n : Nat) : (encodeFixed w n).length = w := by
  induction w generalizing n with
  | zero => rfl
  | succ w ih => simp [encodeFixed, ih]

theorem decodeFixed_snoc (bs : List Byte) (b : Byte) :
    decodeFixed (bs ++ [b]) = decodeFixed bs * 256 + b.val := by
  simp [decodeFixed, List.foldl_append]

theorem decodeFixed_encodeFixed (w n : Nat) : decodeFixed (encodeFixed w n) = n % 256 ^ w := by
  induction w generalizing n with
  | zero => simp [encodeFixed, decodeFixed, Nat.mod_one]
  | succ w ih =>
    rw [encodeFixed, decodeFixed_snoc, ih, pow_succ, Nat.mul_comm (256 ^ w) 256, Nat.mod_mul]
    simp only []
    omega

theorem decodeFixed_encodeFixed_of_lt (w n : Nat) (h : n < 256 ^ w) :
    decodeFixed (encodeFixed w n) = n := by
  rw [decodeFixed_encodeFixed, Nat.mod_eq_of_lt h]

theorem take_encodeFixed_append (w n : Nat) (rest : List Byte) :
    (encodeFixed w n ++ rest).take w = encodeFixed w n := by
  rw [List.take_append_of_le_length (by rw [encodeFixed_length])]
  exact List.take_of_length_le (by rw [encodeFixed_length])

theorem drop_encodeFixed_append (w n : Nat) (rest : List Byte) :
    (encodeFixed w n ++ rest).drop w = rest := by
  have h := List.drop_left (encodeFixed w n) rest
  rwa [encodeFixed_length] at h

/-! ## Lemmas on descriptors and qualified values -/

theorem MaxContentLength_lt (P : Primitives) (n : Nat) (h : n ≤ P.MaxContentLength) :
    n < 256 ^ P.sizeofContentLength := by
  have hpos : 0 < 256 ^ P.sizeofContentLength := Nat.pow_pos (by decide)
  unfold Primitives.MaxContentLength at h
  omega

theorem Qualified.MarshalBinary_eq (P : Primitives) {f : Family} (q : Qualified f) :
    q.MarshalBinary P = .ok (q.Descriptor.binaryForm P ++ q.Blob) := by
  simp [Qualified.MarshalBinary, Qualified.SerializationOrder, Descriptor.SerializationOrder,
    MarshalAllInto, Qualified.ofDescriptor, Descriptor.typeField, Descriptor.lengthField,
    Qualified.blobField, Descriptor.binaryForm]

/-- Decoding a descriptor from its binary form followed by any bytes leaves
exactly those bytes unused. -/
theorem Descriptor.UnmarshalAll_binaryForm (P : Primitives) {f : Family} (d d0 : Descriptor f)
    (rest spare : List Byte) (hd : d.Encodable P) :
    UnmarshalAll ⟨d.binaryForm P ++ rest, spare⟩ d0 (Descriptor.SerializationOrder P f)
      = .ok (⟨rest, spare⟩, d) := by
  obtain ⟨hv, ht, hl⟩ := hd
  have hl2 := MaxContentLength_lt P _ hl
  have e1 : (encodeFixed P.sizeofgenericType d.Typ ++
      (encodeFixed P.sizeofContentLength d.Length ++ rest)).take P.sizeofgenericType
        = encodeFixed P.sizeofgenericType d.Typ := take_encodeFixed_append _ _ _
  have e2 : (encodeFixed P.sizeofgenericType d.Typ ++
      (encodeFixed P.sizeofContentLength d.Length ++ rest)).drop P.sizeofgenericType
        = encodeFixed P.sizeofContentLength d.Length ++ rest := drop_encodeFixed_append _ _ _
  have e3 := take_encodeFixed_append P.sizeofContentLength d.Length rest
  have e4 := drop_encodeFixed_append P.sizeofContentLength d.Length rest
  simp only [Descriptor.binaryForm, Descriptor.SerializationOrder, UnmarshalAll,
    Descriptor.typeField, Descriptor.lengthField, ByteSlice.len, ByteSlice.sliceFrom,
    List.append_assoc, List.length_append, encodeFixed_length, e1, e2, e3, e4,
    decodeFixed_encodeFixed_of_lt _ _ ht, decodeFixed_encodeFixed_of_lt _ _ hl2, hv]
  simp [e3, e4, encodeFixed_length, decodeFixed_encodeFixed_of_lt _ _ hl2]

/-- Reading back the binary form of a length-consistent qualified value, whatever
follows it in the input and whatever the capacity of the input. -/
theorem Qualified.UnmarshalBinary_binaryForm (P : Primitives) {f : Family} (q q0 : Qualified f)
    (rest spare : List Byte) (hd : q.Descriptor.Encodable P)
    (hlen : q.Blob.length = q.Descriptor.Length) :
    Qualified.UnmarshalBinary P q0 ⟨q.Descriptor.binaryForm P ++ q.Blob ++ rest, spare⟩
      = .ok q := by
  unfold Qualified.UnmarshalBinary
  rw [List.append_assoc, Descriptor.UnmarshalAll_binaryForm P q.Descriptor q0.Descriptor _ _ hd]
  have hcap : q.Descriptor.Length ≤ (ByteSlice.mk (q.Blob ++ rest) spare).cap := by
    simp [ByteSlice.cap]; omega
  simp only [ByteSlice.sliceTo, hcap, if_true, Qualified.blobField]
  rw [← hlen, List.append_assoc, List.take_left]

theorem Descriptor.New_ok_iff (P : Primitives) (f : Family) (t : Nat) (length : Int)
    (d : Descriptor f) :
    Descriptor.New P f t length = .ok d ↔
      (0 ≤ length ∧ length ≤ (P.MaxContentLength : Int) ∧ d = ⟨t, length.toNat⟩) := by
  unfold Descriptor.New NewContentLength
  by_cases h : length < 0 ∨ length > (P.MaxContentLength : Int)
  · simp only [h, if_true]
    constructor
    · intro h2; cases h2
    · rintro ⟨h0, h1, _⟩; omega
  · simp only [h, if_false, Result.ok.injEq]
    constructor
    · intro h2; exact ⟨by omega, by omega, h2.symm⟩
    · rintro ⟨_, _, h2⟩; exact h2.symm

theorem Qualified.Equals_self {f : Family} (q : Qualified f) : q.Equals q = true := by
  simp [Qualified.Equals, Descriptor.Equals]

/-! ## Claims on qualified values -/

/-- C1: for each of the four qualified variants (the family `f`), a value whose blob
length equals its descriptor length and whose type and length are encodable
marshals without error, and `UnmarshalBinary` of those bytes, into any receiver
and whatever the capacity of the slice, succeeds with a value that `Equals` the
original. -/
theorem qualified_binary_roundtrip (P : Primitives) (f : Family) (q q0 : Qualified f)
    (spare : List Byte) (hlen : q.Blob.length = q.Descriptor.Length)
    (henc : q.Descriptor.Encodable P) :
    ∃ b, q.MarshalBinary P = .ok b ∧
      ∃ q2, Qualified.UnmarshalBinary P q0 ⟨b, spare⟩ = .ok q2 ∧ q.Equals q2 = true := by
  refine ⟨_, Qualified.MarshalBinary_eq P q, q, ?_, Qualified.Equals_self q⟩
  have h := Qualified.UnmarshalBinary_binaryForm P q q0 [] spare henc hlen
  simpa using h

/-- The round trip at a content value of three bytes. -/
theorem qualified_binary_roundtrip_witness :
    (([7, 8, 9] : List Byte).length = 3 ∧
      (⟨1, 3⟩ : ContentDescriptor).Encodable samplePrimitives) ∧
    ∃ b, (⟨⟨1, 3⟩, [7, 8, 9]⟩ : QualifiedContent).MarshalBinary samplePrimitives = .ok b ∧
      ∃ q2, Qualified.UnmarshalBinary samplePrimitives (⟨⟨0, 0⟩, []⟩ : QualifiedContent) ⟨b, []⟩
          = .ok q2 ∧
        (⟨⟨1, 3⟩, [7, 8, 9]⟩ : QualifiedContent).Equals q2 = true :=
  ⟨⟨by decide, by decide⟩,
    qualified_binary_roundtrip samplePrimitives Family.content ⟨⟨1, 3⟩, [7, 8, 9]⟩ ⟨⟨0, 0⟩, []⟩ []
      (by decide) (by decide)⟩

/-- C6: when the descriptor decodes and fewer bytes follow it than its declared
length, `UnmarshalBinary` never returns an error: the slice expression
`unused[:q.Descriptor.Length]` panics when the declared length exceeds the
capacity, and otherwise the call succeeds with a blob made of the remaining
input followed by bytes of the backing array beyond the end of the input. -/
theorem unmarshal_short_blob_not_error (P : Primitives) (f : Family) (q0 : Qualified f)
    (b unused : ByteSlice) (d : Descriptor f)
    (hdesc : UnmarshalAll b q0.Descriptor (Descriptor.SerializationOrder P f) = .ok (unused, d))
    (hshort : unused.len < d.Length) :
    (∀ e, Qualified.UnmarshalBinary P q0 b ≠ .error e) ∧
    (unused.cap < d.Length → Qualified.UnmarshalBinary P q0 b = .panic) ∧
    (d.Length ≤ unused.cap → Qualified.UnmarshalBinary P q0 b
        = .ok ⟨d, unused.data ++ unused.spare.take (d.Length - unused.len)⟩) := by
  have htake : (unused.data ++ unused.spare).take d.Length
      = unused.data ++ unused.spare.take (d.Length - unused.len) := by
    rw [List.take_append_eq_append_take, List.take_of_length_le (Nat.le_of_lt hshort)]
    rfl
  unfold Qualified.UnmarshalBinary
  rw [hdesc]
  by_cases hc : d.Length ≤ unused.cap
  · simp [ByteSlice.sliceTo, hc, Qualified.blobField, htake]
  · simp [ByteSlice.sliceTo, hc, Qualified.blobField]

/-- Four input bytes that declare a blob of five: the call panics. -/
theorem unmarshal_short_blob_witness :
    (UnmarshalAll (ByteSlice.ofList [1, 0, 5, 170]) (⟨0, 0⟩ : ContentDescriptor)
        (Descriptor.SerializationOrder samplePrimitives Family.content)
        = .ok (ByteSlice.ofList [170], ⟨1, 5⟩) ∧
      (ByteSlice.ofList [170]).len < 5) ∧
      Qualified.UnmarshalBinary samplePrimitives (⟨⟨0, 0⟩, []⟩ : QualifiedContent)
        (ByteSlice.ofList [1, 0, 5, 170]) = .panic :=
  ⟨⟨by decide, by decide⟩,
    (unmarshal_short_blob_not_error samplePrimitives Family.content ⟨⟨0, 0⟩, []⟩
      (ByteSlice.ofList [1, 0, 5, 170]) (ByteSlice.ofList [170]) ⟨1, 5⟩
      (by decide) (by decide)).2.1 (by decide)⟩

/-- C7: for each qualified variant, `Validate` returns nil exactly when the
descriptor validates and the blob length equals the descriptor length; with a
valid descriptor and differing lengths it returns the length-mismatch error. -/
theorem qualified_validate_iff (P : Primitives) (f : Family) (q : Qualified f) :
    (q.Validate P = none ↔
      (q.Descriptor.Validate P = none ∧ q.Blob.length = q.Descriptor.Length)) ∧
    (q.Descriptor.Validate P = none → q.Blob.length ≠ q.Descriptor.Length →
      q.Validate P = some (.lengthMismatch q.Descriptor.Length q.Blob.length)) := by
  unfold Qualified.Validate
  cases hv : q.Descriptor.Validate P with
  | some err => simp
  | none =>
    by_cases hl : q.Descriptor.Length = q.Blob.length
    · simp [hl]
    · have hl2 : ¬ q.Blob.length = q.Descriptor.Length := fun h => hl h.symm
      simp [hl, hl2]

/-- A content value of declared length nine with a blob of eight bytes. -/
theorem qualified_validate_iff_witness :
    ((⟨1, 9⟩ : ContentDescriptor).Validate samplePrimitives = none ∧
      ([1, 2, 3, 4, 5, 6, 7, 8] : List Byte).length ≠ 9) ∧
      (⟨⟨1, 9⟩, [1, 2, 3, 4, 5, 6, 7, 8]⟩ : QualifiedContent).Validate samplePrimitives
        = some (.lengthMismatch 9 8) :=
  ⟨⟨by decide, by decide⟩,
    (qualified_validate_iff samplePrimitives Family.content
      ⟨⟨1, 9⟩, [1, 2, 3, 4, 5, 6, 7, 8]⟩).2 (by decide) (by decide)⟩

/-- What a constructor of qualified values returns: the blob is the content, the
descriptor carries the type tag and the length of the content, the length check
of `Validate` passes, and `Validate` returns what the descriptor's `Validate`
returns. -/
theorem new_qualified_ok (P : Primitives) (f : Family) (t : Nat) (content : List Byte)
    (q : Qualified f) (h : Qualified.New P f t content = .ok q) :
    q.Blob = content ∧ q.Descriptor.Typ = t ∧ q.Descriptor.Length = content.length ∧
      q.Blob.length = q.Descriptor.Length ∧
      q.Validate P = q.Descriptor.Validate P ∧
      (q.Descriptor.Validate P = none → q.Validate P = none) := by
  unfold Qualified.New Descriptor.New NewContentLength at h
  split at h
  · rename_i hd heq
    split at heq
    · rename_i c hc
      split at hc
      · cases hc
      · cases hc
        cases heq
        cases h
        have hv : Qualified.Validate P (⟨⟨t, (content.length : Int).toNat⟩, content⟩ : Qualified f)
            = Descriptor.Validate P (⟨t, (content.length : Int).toNat⟩ : Descriptor f) := by
          unfold Qualified.Validate
          cases Descriptor.Validate P (⟨t, (content.length : Int).toNat⟩ : Descriptor f) <;> simp
        refine ⟨rfl, rfl, by simp, by simp, hv, fun h0 => by rw [hv, h0]⟩
    · cases heq
    · cases heq
  · cases h
  · cases h

theorem Descriptor.New_of_qualified (P : Primitives) (f : Family) (t : Nat)
    (content : List Byte) (q : Qualified f) (h : Qualified.New P f t content = .ok q) :
    Descriptor.New P f t (content.length : Int) = .ok q.Descriptor := by
  unfold Qualified.New at h
  cases hd : Descriptor.New P f t (content.length : Int) with
  | ok d =>
    simp only [hd, Result.ok.injEq] at h
    rw [← h]
  | error e => simp [hd] at h
  | panic => simp [hd] at h

/-- C8: whenever `NewQualifiedContent(t, content)` (likewise `NewQualifiedHash`,
`NewQualifiedKey`, `NewQualifiedSignature`) returns without error, the blob of
the result is `content`, its descriptor has the type `t` and the length
`len(content)`, and `Validate` on it returns nil; the descriptor, which
`NewXDescriptor` returned, validates. -/
theorem new_qualified_valid (P : Primitives) (f : Family) (t : Nat) (content : List Byte)
    (q : Qualified f) (hP : P.ValidatesConstructed)
    (h : Qualified.New P f t content = .ok q) :
    q.Blob = content ∧ q.Descriptor.Typ = t ∧ q.Descriptor.Length = content.length ∧
      q.Validate P = none := by
  obtain ⟨h1, h2, h3, _, _, h6⟩ := new_qualified_ok P f t content q h
  exact ⟨h1, h2, h3,
    h6 (hP f t (content.length : Int) q.Descriptor (Descriptor.New_of_qualified P f t content q h))⟩

theorem rangePrimitives_validatesConstructed : rangePrimitives.ValidatesConstructed := by
  intro f t length d h
  obtain ⟨h0, h1, hd⟩ := (Descriptor.New_ok_iff rangePrimitives f t length d).mp h
  subst hd
  have hmax : (rangePrimitives.MaxContentLength : Int) = 65535 := by decide
  have hle : length.toNat ≤ 65535 := by omega
  simp [Descriptor.Validate, rangePrimitives, hle]

/-- The constructor at content type 1 and three bytes. -/
theorem new_qualified_valid_witness :
    (rangePrimitives.ValidatesConstructed ∧
      Qualified.New rangePrimitives Family.content 1 [7, 8, 9] = .ok ⟨⟨1, 3⟩, [7, 8, 9]⟩) ∧
    (([7, 8, 9] : List Byte) = [7, 8, 9] ∧ (1 : Nat) = 1 ∧
      (3 : Nat) = ([7, 8, 9] : List Byte).length ∧
      (⟨⟨1, 3⟩, [7, 8, 9]⟩ : QualifiedContent).Validate rangePrimitives = none) :=
  ⟨⟨rangePrimitives_validatesConstructed, by decide⟩,
    new_qualified_valid rangePrimitives Family.content 1 [7, 8, 9] ⟨⟨1, 3⟩, [7, 8, 9]⟩
      rangePrimitives_validatesConstructed (by decide)⟩

/-! ## Lemmas on the memory store -/

theorem MemoryStore.lookup_assign_self {N : Type} (items : List (Text × Option N)) (k : Text)
    (v : Option N) : (MemoryStore.assign items k v).lookup k = some v := by
  have h : (items.filter (fun e => e.1 != k)).lookup k = none := by
    rw [List.lookup_eq_none_iff]
    intro p hp
    have := (List.mem_filter.mp hp).2
    simp only [bne_iff_ne, ne_eq] at this ⊢
    exact fun h => this h.symm
  simp [MemoryStore.assign, List.lookup_append, h, List.lookup_cons]

theorem MemoryStore.lookup_filter_ne {N : Type} (items : List (Text × Option N)) (k k2 : Text)
    (hne : k2 ≠ k) : (items.filter (fun e => e.1 != k)).lookup k2 = items.lookup k2 := by
  induction items with
  | nil => rfl
  | cons p rest ih =>
    obtain ⟨pk, pv⟩ := p
    by_cases hp : pk = k
    · subst hp
      have hk : (k2 == pk) = false := by simpa using hne
      simp [List.filter_cons, List.lookup_cons, hk, ih]
    · have hp2 : (pk != k) = true := by simpa using hp
      simp only [List.filter_cons, hp2, if_true, List.lookup_cons, ih]

theorem MemoryStore.lookup_assign_ne {N : Type} (items : List (Text × Option N)) (k k2 : Text)
    (v : Option N) (hne : k2 ≠ k) :
    (MemoryStore.assign items k v).lookup k2 = items.lookup k2 := by
  have hk : (k2 == k) = false := by simpa using hne
  simp [MemoryStore.assign, List.lookup_append, MemoryStore.lookup_filter_ne items k k2 hne,
    List.lookup_cons, hk]

theorem MemoryStore.GetID_has_iff {N : Type} (m : MemoryStore N) (k : Text) :
    (m.GetID k).has = true ↔ ∃ v, m.Items.lookup k = some v := by
  unfold MemoryStore.GetID
  cases h : m.Items.lookup k <;> simp

/-- After `AddID`, the key is present; it holds the new node when it was absent
before and the old one otherwise. -/
theorem MemoryStore.GetID_AddID_self {N : Type} (m : MemoryStore N) (k : Text) (v : Option N) :
    (m.AddID k v).2 = none ∧ ((m.AddID k v).1.GetID k).has = true ∧
      ((m.GetID k).has = true → (m.AddID k v).1 = m) ∧
      ((m.GetID k).has = false → (m.AddID k v).1.GetID k = ⟨v, true, none⟩) := by
  unfold MemoryStore.AddID
  by_cases h : (m.GetID k).has = true
  · simp [h]
  · simp only [h, if_false, true_and]
    have hl := MemoryStore.lookup_assign_self m.Items k v
    simp [MemoryStore.GetID, hl]

/-! ## Claims on the stores -/

/-- C2: when `Add` of a node has returned nil, a second `Add` of the same node on
a `MemoryStore` returns nil and leaves the store as the first left it, so `Size`
and `Get` of the node's ID answer as after the first `Add`: `Get` finds a node,
which is the added node when its key was absent before the first `Add`.  More
generally `Add` of any node whose ID text key is present changes nothing. -/
theorem memory_store_add_idempotent {N : Type} [Node N] (P : Primitives) (m m1 : MemoryStore N)
    (n : N) (h : m.Add P (some n) = .returned (m1, none)) :
    (∃ m2, m1.Add P (some n) = .returned (m2, none) ∧ m2 = m1 ∧ m2.Size = m1.Size ∧
      m2.Get P (Node.ID n) = m1.Get P (Node.ID n)) ∧
    (m1.Get P (Node.ID n)).has = true ∧ (m1.Get P (Node.ID n)).err = none ∧
    ((m.Get P (Node.ID n)).has = false → m1.Get P (Node.ID n) = ⟨some n, true, none⟩) ∧
    (∀ (s : MemoryStore N) (x : N) (key : Text), Qualified.MarshalString P (Node.ID x) = .ok key →
      (s.GetID key).has = true → s.Add P (some x) = .returned (s, none)) := by
  have hgen : ∀ (s : MemoryStore N) (x : N) (key : Text),
      Qualified.MarshalString P (Node.ID x) = .ok key →
      (s.GetID key).has = true → s.Add P (some x) = .returned (s, none) := by
    intro s x key hk hhas
    simp [MemoryStore.Add, hk, MemoryStore.AddID, hhas]
  unfold MemoryStore.Add at h
  cases hk : Qualified.MarshalString P (Node.ID n) with
  | error err => simp [hk] at h
  | ok key =>
    simp only [hk, Outcome.returned.injEq] at h
    obtain ⟨_, hhas, hsame, hnew⟩ := MemoryStore.GetID_AddID_self m key (some n)
    have hm1 : (m.AddID key (some n)).1 = m1 := by rw [h]
    rw [hm1] at hhas hsame hnew
    refine ⟨⟨m1, hgen m1 n key hk hhas, rfl, rfl, rfl⟩, ?_, ?_, ?_, hgen⟩
    · simp [MemoryStore.Get, hk, hhas]
    · simp [MemoryStore.Get, hk, MemoryStore.GetID]
      cases m1.Items.lookup key <;> rfl
    · intro hmiss
      simp only [MemoryStore.Get, hk] at hmiss ⊢
      exact hnew hmiss

/-- The sample node added to the empty store. -/
theorem memory_store_add_idempotent_witness :
    (MemoryStore.New.Add samplePrimitives (some (⟨⟨⟨1, 2⟩, [3, 4]⟩, 7⟩ : SampleNode))
        = .returned (⟨[(textBytes "T1_2__" ++ [3, 4], some ⟨⟨⟨1, 2⟩, [3, 4]⟩, 7⟩)]⟩, none)) ∧
    (MemoryStore.Get samplePrimitives
        (⟨[(textBytes "T1_2__" ++ [3, 4], some (⟨⟨⟨1, 2⟩, [3, 4]⟩, 7⟩ : SampleNode))]⟩)
        ⟨⟨1, 2⟩, [3, 4]⟩).has = true :=
  ⟨by decide,
    (memory_store_add_idempotent samplePrimitives MemoryStore.New _
      (⟨⟨⟨1, 2⟩, [3, 4]⟩, 7⟩ : SampleNode) (by decide)).2.1⟩

/-- C3: when `Back.Add(Z)` returns an error, `CacheStore.Add(Z)` returns that
error, the Cache is in the state it was in, so every `Cache.Get` answers as
before, and the method table of the Cache plays no part in the call (`Cache.Add`
is not called). -/
theorem cache_store_add_back_error {N σc σb : Type} (cacheStore : Store N σc)
    (backStore : Store N σb) (m : CacheStore σc σb) (z : Option N) (back1 : σb) (err : Error)
    (h : backStore.Add m.Back z = .returned (back1, some err)) :
    (∃ m1, CacheStore.Add cacheStore backStore m z = .returned (m1, some err) ∧
      m1.Cache = m.Cache ∧ m1.Back = back1 ∧
      ∀ id, cacheStore.Get m1.Cache id = cacheStore.Get m.Cache id) ∧
    (∀ other : Store N σc,
      CacheStore.Add other backStore m z = CacheStore.Add cacheStore backStore m z) := by
  constructor
  · exact ⟨⟨m.Cache, back1⟩, by simp [CacheStore.Add, h], rfl, rfl, fun _ => rfl⟩
  · intro other
    simp [CacheStore.Add, h]

/-- A node whose ID has no text form: the Back store refuses it. -/
theorem cache_store_add_back_error_witness :
    ((MemoryStore.asStore samplePrimitives).Add (MemoryStore.New : MemoryStore SampleNode)
        (some ⟨⟨⟨9, 0⟩, []⟩, 7⟩) = .returned (MemoryStore.New, some (.unrecognizedType 9))) ∧
    ∃ m1, CacheStore.Add (MemoryStore.asStore samplePrimitives)
        (MemoryStore.asStore samplePrimitives)
        (⟨MemoryStore.New, MemoryStore.New⟩ : CacheStore (MemoryStore SampleNode) _)
        (some ⟨⟨⟨9, 0⟩, []⟩, 7⟩) = .returned (m1, some (.unrecognizedType 9)) ∧
      m1.Cache = MemoryStore.New ∧ m1.Back = MemoryStore.New ∧
      ∀ id, (MemoryStore.asStore samplePrimitives).Get m1.Cache id
        = (MemoryStore.asStore samplePrimitives).Get MemoryStore.New id :=
  ⟨by decide,
    (cache_store_add_back_error (MemoryStore.asStore samplePrimitives)
      (MemoryStore.asStore samplePrimitives)
      (⟨MemoryStore.New, MemoryStore.New⟩ : CacheStore (MemoryStore SampleNode) _)
      (some ⟨⟨⟨9, 0⟩, []⟩, 7⟩) MemoryStore.New (.unrecognizedType 9) (by decide)).1⟩

/-- `Add` on a memory store never removes a key. -/
theorem MemoryStore.Add_keeps_key {N : Type} [Node N] (P : Primitives) (s s1 : MemoryStore N)
    (node : Option N) (e : Option Error) (k : Text)
    (h : s.Add P node = .returned (s1, e)) (hk : (s.GetID k).has = true) :
    (s1.GetID k).has = true := by
  unfold MemoryStore.Add at h
  cases node with
  | none => simp at h
  | some n =>
    cases hm : Qualified.MarshalString P (Node.ID n) with
    | error err =>
      simp only [hm, Outcome.returned.injEq, Prod.mk.injEq] at h
      rw [← h.1]; exact hk
    | ok key =>
      simp only [hm, Outcome.returned.injEq] at h
      obtain ⟨_, hhas, hsame, _⟩ := MemoryStore.GetID_AddID_self s key (some n)
      have hs1 : (s.AddID key (some n)).1 = s1 := by rw [h]
      by_cases hkey : k = key
      · subst hkey; rw [← hs1]; exact hhas
      · by_cases hpres : (s.GetID key).has = true
        · rw [← hs1, hsame hpres]; exact hk
        · rw [← hs1]
          rw [MemoryStore.GetID_has_iff] at hk ⊢
          simp only [MemoryStore.AddID, hpres]
          show ∃ v, List.lookup k (MemoryStore.assign s.Items key (some n)) = some v
          rw [MemoryStore.lookup_assign_ne _ _ _ _ hkey]
          exact hk

/-- A successful `Add` of a node on a memory store leaves the node's ID
retrievable. -/
theorem MemoryStore.Get_after_Add {N : Type} [Node N] (P : Primitives) (s s1 : MemoryStore N)
    (n : N) (h : s.Add P (some n) = .returned (s1, none)) :
    ∃ key, Qualified.MarshalString P (Node.ID n) = .ok key ∧ (s1.GetID key).has = true := by
  unfold MemoryStore.Add at h
  cases hm : Qualified.MarshalString P (Node.ID n) with
  | error err => simp [hm] at h
  | ok key =>
    simp only [hm, Outcome.returned.injEq] at h
    obtain ⟨_, hhas, _, _⟩ := MemoryStore.GetID_AddID_self s key (some n)
    have hs1 : (s.AddID key (some n)).1 = s1 := by rw [h]
    exact ⟨key, rfl, by rw [← hs1]; exact hhas⟩

/-- The loop of `CopyInto` into a memory store: keys present stay present, and
when the loop ends without error every node visited is retrievable. -/
theorem MemoryStore.copyLoop_memory {N : Type} [Node N] (P : Primitives)
    (items : List (Text × Option N)) (s s1 : MemoryStore N)
    (h : MemoryStore.copyLoop (fun o node => MemoryStore.Add P o node) items s
      = .returned (s1, none)) :
    (∀ k, (s.GetID k).has = true → (s1.GetID k).has = true) ∧
    (∀ k x, (k, some x) ∈ items →
      ∃ key, Qualified.MarshalString P (Node.ID x) = .ok key ∧ (s1.GetID key).has = true) := by
  induction items generalizing s with
  | nil =>
    simp only [MemoryStore.copyLoop, Outcome.returned.injEq, Prod.mk.injEq, and_true] at h
    subst h
    exact ⟨fun _ hk => hk, fun _ _ hx => by cases hx⟩
  | cons p rest ih =>
    obtain ⟨pk, pv⟩ := p
    simp only [MemoryStore.copyLoop] at h
    cases hadd : MemoryStore.Add P s pv with
    | panicked => simp [hadd] at h
    | returned r =>
      obtain ⟨s2, e⟩ := r
      cases e with
      | some err => simp [hadd] at h
      | none =>
        simp only [hadd] at h
        obtain ⟨hkeep, hall⟩ := ih s2 h
        refine ⟨fun k hk => hkeep k (MemoryStore.Add_keeps_key P s s2 pv none k hadd hk), ?_⟩
        intro k x hx
        rcases List.mem_cons.mp hx with heq | hrest
        · simp only [Prod.mk.injEq] at heq
          obtain ⟨_, hv⟩ := heq
          subst hv
          obtain ⟨key, hkey, hhas⟩ := MemoryStore.Get_after_Add P s s2 x hadd
          exact ⟨key, hkey, hkeep key hhas⟩
        · exact hall k x hrest

/-- C4: `NewCacheStore(cache, back)` copies `cache` into `back` first.  When the
copy returns an error, that error is returned with no `CacheStore`; when it
returns nil, the `CacheStore` made of the two stores is returned.  With two
memory stores and a nil result, the Cache is the given cache, and every node
that was in the cache is found by `Get` of its ID on the Back store. -/
theorem new_cache_store_copies {N σc σb : Type} [Node N] (P : Primitives)
    (cacheStore : Store N σc) (backStore : Store N σb) (cache : σc) (back : σb) :
    (∀ cache1 back1 err,
      cacheStore.CopyInto σb backStore.Add cache back = .returned ((cache1, back1), some err) →
      NewCacheStore cacheStore backStore cache back
        = .returned ⟨none, some err, cache1, back1⟩) ∧
    (∀ cache1 back1,
      cacheStore.CopyInto σb backStore.Add cache back = .returned ((cache1, back1), none) →
      NewCacheStore cacheStore backStore cache back
        = .returned ⟨some ⟨cache1, back1⟩, none, cache1, back1⟩) ∧
    (∀ (mc mb : MemoryStore N) (r : NewCacheStoreResult (MemoryStore N) (MemoryStore N)),
      NewCacheStore (MemoryStore.asStore P) (MemoryStore.asStore P) mc mb = .returned r →
      r.err = none →
      ∃ back1, r.store = some ⟨mc, back1⟩ ∧ r.cache = mc ∧ r.back = back1 ∧
        ∀ k x, (k, some x) ∈ mc.Items →
          (back1.Get P (Node.ID x)).has = true ∧ (back1.Get P (Node.ID x)).err = none) := by
  refine ⟨?_, ?_, ?_⟩
  · intro cache1 back1 err h
    simp [NewCacheStore, h]
  · intro cache1 back1 h
    simp [NewCacheStore, h]
  · intro mc mb r h herr
    simp only [NewCacheStore, MemoryStore.asStore, MemoryStore.CopyInto] at h
    cases hloop : MemoryStore.copyLoop (fun o node => MemoryStore.Add P o node) mc.Items mb with
    | panicked => simp [hloop] at h
    | returned res =>
      obtain ⟨b1, e⟩ := res
      cases e with
      | some err =>
        simp only [hloop, Outcome.returned.injEq] at h
        rw [← h] at herr
        cases herr
      | none =>
        simp only [hloop, Outcome.returned.injEq] at h
        subst h
        refine ⟨b1, rfl, rfl, rfl, ?_⟩
        intro k x hx
        obtain ⟨key, hkey, hhas⟩ := (MemoryStore.copyLoop_memory P mc.Items mb b1 hloop).2 k x hx
        simp only [MemoryStore.Get, hkey]
        refine ⟨hhas, ?_⟩
        unfold MemoryStore.GetID
        cases b1.Items.lookup key <;> rfl

/-- C5, amended: `CacheStore.Get` reads through.  An error of `Cache.Get` is returned with
found=false.  A Cache hit is returned, the Back store being neither consulted nor
changed.  On a Cache miss the Back store is asked: its error is returned with
found=false; its miss gives found=false with a nil error; its hit is added to the
Cache and returned with found=true, an error of that `Add` being returned with
found=false.  When the Cache is a memory store and the node returned carries the
ID asked for, a following `Cache.Get` of that ID hits. -/
theorem cache_store_get_read_through {N σc σb : Type} [Node N] (P : Primitives)
    (cacheStore : Store N σc) (backStore : Store N σb) (m : CacheStore σc σb)
    (id : QualifiedHash) :
    (∀ c1 r, cacheStore.Get m.Cache id = .returned (c1, r) → r.err ≠ none →
      CacheStore.Get cacheStore backStore m id
        = .returned (⟨c1, m.Back⟩, ⟨none, false, r.err⟩)) ∧
    (∀ c1 r, cacheStore.Get m.Cache id = .returned (c1, r) → r.err = none → r.has = true →
      CacheStore.Get cacheStore backStore m id = .returned (⟨c1, m.Back⟩, ⟨r.node, true, none⟩) ∧
      ∀ other : Store N σb, CacheStore.Get cacheStore other m id
        = CacheStore.Get cacheStore backStore m id) ∧
    (∀ c1 r b1 r2, cacheStore.Get m.Cache id = .returned (c1, r) → r.err = none →
      r.has = false → backStore.Get m.Back id = .returned (b1, r2) →
      (r2.err ≠ none → CacheStore.Get cacheStore backStore m id
        = .returned (⟨c1, b1⟩, ⟨none, false, r2.err⟩)) ∧
      (r2.err = none → r2.has = false → CacheStore.Get cacheStore backStore m id
        = .returned (⟨c1, b1⟩, ⟨none, false, none⟩)) ∧
      (r2.err = none → r2.has = true → ∀ c2,
        (cacheStore.Add c1 r2.node = .returned (c2, none) →
          CacheStore.Get cacheStore backStore m id
            = .returned (⟨c2, b1⟩, ⟨r2.node, true, none⟩)) ∧
        (∀ err, cacheStore.Add c1 r2.node = .returned (c2, some err) →
          CacheStore.Get cacheStore backStore m id
            = .returned (⟨c2, b1⟩, ⟨none, false, some err⟩)))) ∧
    (∀ (mc : MemoryStore N) (b : σb) (m1 : CacheStore (MemoryStore N) σb) (n : N),
      CacheStore.Get (MemoryStore.asStore P) backStore ⟨mc, b⟩ id
        = .returned (m1, ⟨some n, true, none⟩) →
      Qualified.MarshalString P (Node.ID n) = Qualified.MarshalString P id →
      (m1.Cache.Get P id).has = true ∧ (m1.Cache.Get P id).err = none) := by
  refine ⟨?_, ?_, ?_, ?_⟩
  · intro c1 r h herr
    simp [CacheStore.Get, h, herr]
  · intro c1 r h herr hhas
    constructor
    · simp [CacheStore.Get, h, herr, hhas]
    · intro other
      simp [CacheStore.Get, h, herr, hhas]
  · intro c1 r b1 r2 h herr hhas h2
    refine ⟨?_, ?_, ?_⟩
    · intro herr2
      simp [CacheStore.Get, h, herr, hhas, h2, herr2]
    · intro herr2 hhas2
      simp [CacheStore.Get, h, herr, hhas, h2, herr2, hhas2]
    · intro herr2 hhas2 c2
      constructor
      · intro hadd
        simp [CacheStore.Get, h, herr, hhas, h2, herr2, hhas2, hadd]
      · intro err hadd
        simp [CacheStore.Get, h, herr, hhas, h2, herr2, hhas2, hadd]
  · intro mc b m1 n h hkey
    have herrnone : ∀ (s : MemoryStore N) key, Qualified.MarshalString P id = .ok key →
        (s.GetID key).has = true → (s.Get P id).has = true ∧ (s.Get P id).err = none := by
      intro s key hk hh
      simp only [MemoryStore.Get, hk]
      refine ⟨hh, ?_⟩
      unfold MemoryStore.GetID
      cases s.Items.lookup key <;> rfl
    simp only [CacheStore.Get, MemoryStore.asStore] at h
    by_cases he : (mc.Get P id).err = none
    · by_cases hh : (mc.Get P id).has = true
      · simp only [he, hh, ne_eq, not_true_eq_false, if_false, if_true, Outcome.returned.injEq,
          Prod.mk.injEq] at h
        rw [← h.1]
        exact ⟨hh, he⟩
      · simp only [he, hh, ne_eq, not_true_eq_false, if_false] at h
        cases hb : backStore.Get b id with
        | panicked => simp [hb] at h
        | returned res =>
          obtain ⟨b1, r2⟩ := res
          simp only [hb] at h
          by_cases he2 : r2.err = none
          · by_cases hh2 : r2.has = true
            · simp only [he2, hh2, ne_eq, not_true_eq_false, if_false, if_true] at h
              cases hadd : MemoryStore.Add P mc r2.node with
              | panicked => simp [hadd] at h
              | returned ar =>
                obtain ⟨c2, e⟩ := ar
                cases e with
                | some err => simp [hadd] at h
                | none =>
                  simp only [hadd, Bool.false_eq_true, if_false, Outcome.returned.injEq,
                    Prod.mk.injEq, GetResult.mk.injEq, and_true] at h
                  obtain ⟨hm1, hnode⟩ := h
                  rw [hnode] at hadd
                  obtain ⟨key, hk, hhas⟩ := MemoryStore.Get_after_Add P mc c2 n hadd
                  rw [← hm1]
                  exact herrnone c2 key (by rw [← hkey]; exact hk) hhas
            · simp [he2, hh2] at h
          · simp [he2] at h
    · simp [he] at h

/-- A cache that holds the sample node, composed with an empty Back store. -/
theorem new_cache_store_copies_witness :
    (NewCacheStore (MemoryStore.asStore samplePrimitives) (MemoryStore.asStore samplePrimitives)
        sampleStore MemoryStore.New
        = .returned ⟨some ⟨sampleStore, sampleStore⟩, none, sampleStore, sampleStore⟩) ∧
    ∃ back1, (some ⟨sampleStore, sampleStore⟩ : Option (CacheStore _ _))
        = some ⟨sampleStore, back1⟩ ∧ sampleStore = sampleStore ∧ sampleStore = back1 ∧
      ∀ k x, (k, some x) ∈ sampleStore.Items →
        (back1.Get samplePrimitives (Node.ID x)).has = true ∧
          (back1.Get samplePrimitives (Node.ID x)).err = none :=
  ⟨by decide,
    (new_cache_store_copies samplePrimitives (MemoryStore.asStore samplePrimitives)
      (MemoryStore.asStore samplePrimitives) sampleStore (MemoryStore.New)).2.2
      sampleStore MemoryStore.New ⟨some ⟨sampleStore, sampleStore⟩, none, sampleStore, sampleStore⟩
      (by decide) rfl⟩

/-- An empty Cache over a Back store that holds the sample node. -/
theorem cache_store_get_read_through_witness :
    (CacheStore.Get (MemoryStore.asStore samplePrimitives) (MemoryStore.asStore samplePrimitives)
        ⟨MemoryStore.New, sampleStore⟩ sampleNode.id
        = .returned (⟨sampleStore, sampleStore⟩, ⟨some sampleNode, true, none⟩)) ∧
    ((sampleStore.Get samplePrimitives sampleNode.id).has = true ∧
      (sampleStore.Get samplePrimitives sampleNode.id).err = none) :=
  ⟨by decide,
    (cache_store_get_read_through samplePrimitives (MemoryStore.asStore samplePrimitives)
      (MemoryStore.asStore samplePrimitives) ⟨MemoryStore.New, sampleStore⟩ sampleNode.id).2.2.2
      MemoryStore.New sampleStore ⟨sampleStore, sampleStore⟩ sampleNode (by decide) rfl⟩

/-! ## Lemmas on the node model -/

theorem Qualified.binaryForm_length (P : Primitives) {f : Family} (q : Qualified f) :
    (q.binaryForm P).length = q.BytesConsumed P := by
  simp [Qualified.binaryForm, Descriptor.binaryForm, encodeFixed_length, Qualified.BytesConsumed,
    TotalBytesConsumed, Qualified.SerializationOrder, Descriptor.SerializationOrder,
    Qualified.ofDescriptor, Descriptor.typeField, Descriptor.lengthField, Qualified.blobField]

/-- One step of `UnmarshalAll` over a field that holds a qualified value: the
binary form at the front of the input is decoded into the field and dropped. -/
theorem UnmarshalAll_qualified_field (P : Primitives) {f : Family} {σ : Type}
    (get : σ → Qualified f) (set : σ → Qualified f → σ)
    (hgs : ∀ s q, get (set s q) = q) (q : Qualified f) (hq : q.WellFormed P)
    (rest spare : List Byte) (s : σ) (us : List (BidirectionalBinaryMarshaler σ)) :
    UnmarshalAll ⟨q.binaryForm P ++ rest, spare⟩ s (Qualified.asField P get set :: us)
      = UnmarshalAll ⟨rest, spare⟩ (set s q) us := by
  have hdec := Qualified.UnmarshalBinary_binaryForm P q (get s) rest spare hq.2 hq.1
  have hlen := Qualified.binaryForm_length P q
  have hdrop : (q.binaryForm P ++ rest).drop (q.BytesConsumed P) = rest := by
    rw [← hlen]; exact List.drop_left _ _
  have hle : q.BytesConsumed P ≤ (q.binaryForm P ++ rest).length := by
    rw [← hlen]; simp
  unfold Qualified.binaryForm at hdrop hle
  rw [UnmarshalAll]
  simp only [Qualified.asField, Qualified.binaryForm, hdec, hgs, ByteSlice.sliceFrom,
    ByteSlice.len, hle, if_true, hdrop]

theorem Community.MarshalSignedData_eq (P : Primitives) (c : Community) :
    c.MarshalSignedData P
      = .ok (c.Name.binaryForm P ++ c.Metadata.binaryForm P ++ c.Author.binaryForm P) := by
  simp [Community.MarshalSignedData, Community.signedOrder, MarshalAllInto,
    Qualified.asField, Qualified.MarshalBinary_eq, Qualified.binaryForm]

theorem Community.MarshalBinary_bytes (P : Primitives) (c : Community) :
    c.MarshalBinary P
      = .ok (c.Name.binaryForm P ++ (c.Metadata.binaryForm P ++ (c.Author.binaryForm P ++
          (c.id.binaryForm P ++ (c.Signature.binaryForm P ++ []))))) := by
  simp [Community.MarshalBinary, Community.SerializationOrder, Community.signedOrder,
    MarshalAllInto, Qualified.asField, Qualified.MarshalBinary_eq, Qualified.binaryForm]

/-- A community whose five fields are well formed is read back from its binary
form. -/
theorem Community.unmarshal_marshal (P : Primitives) (c : Community) (spare : List Byte)
    (h1 : c.Name.WellFormed P) (h2 : c.Metadata.WellFormed P) (h3 : c.Author.WellFormed P)
    (h4 : c.id.WellFormed P) (h5 : c.Signature.WellFormed P) :
    ∃ b, c.MarshalBinary P = .ok b ∧ UnmarshalCommunity P ⟨b, spare⟩ = .ok c := by
  refine ⟨_, Community.MarshalBinary_bytes P c, ?_⟩
  unfold UnmarshalCommunity Community.SerializationOrder Community.signedOrder
  simp only [List.cons_append, List.nil_append]
  rw [UnmarshalAll_qualified_field P _ _ (fun _ _ => rfl) c.Name h1,
    UnmarshalAll_qualified_field P _ _ (fun _ _ => rfl) c.Metadata h2,
    UnmarshalAll_qualified_field P _ _ (fun _ _ => rfl) c.Author h3,
    UnmarshalAll_qualified_field P _ _ (fun _ _ => rfl) c.id h4,
    UnmarshalAll_qualified_field P _ _ (fun _ _ => rfl) c.Signature h5]
  simp [UnmarshalAll]

theorem Community.Equals_same_community (c : Community) : c.Equals c = true := by
  simp [Community.Equals, Qualified.Equals_self]

/-- The fields of the community that `NewCommunity` returns. -/
theorem Builder.NewCommunity_fields (P : Primitives) (b : Builder)
    (name metadata : QualifiedContent) (c : Community)
    (h : b.NewCommunity P name metadata = .ok c) :
    c.Name = name ∧ c.Metadata = metadata ∧ c.Author = b.User.ID ∧
      ∃ payload, c.MarshalSignedData P = .ok payload ∧
        b.Signer.Hash payload = .ok c.id ∧ b.Signer.Sign payload = .ok c.Signature := by
  unfold Builder.NewCommunity at h
  simp only [Community.MarshalSignedData_eq] at h
  split at h
  · cases h
  · cases h
  · rename_i id hid
    split at h
    · cases h
    · cases h
    · rename_i sig hsig
      cases h
      refine ⟨rfl, rfl, rfl, _, Community.MarshalSignedData_eq P _, ?_, ?_⟩
      · exact hid
      · exact hsig

/-- Overwriting the name blob with different bytes changes the canonical
payload, the bytes that are hashed and signed. -/
theorem Community.tamper_changes_payload (P : Primitives) (c : Community) (blob : List Byte)
    (h : blob ≠ c.Name.Blob) :
    ({ c with Name := { c.Name with Blob := blob } } : Community).MarshalSignedData P
      ≠ c.MarshalSignedData P := by
  rw [Community.MarshalSignedData_eq, Community.MarshalSignedData_eq]
  intro heq
  simp only [Result.ok.injEq, Qualified.binaryForm, List.append_assoc] at heq
  exact h (List.append_cancel_right (List.append_cancel_left heq))

/-! ## Claims on the node model -/

/-- C9, amended: a community produced by `As(identity, signer).NewCommunity(name,
metadata)` from well-formed name, metadata and author ID, with a well-formed ID
and signature from the signer, marshals without error, and `UnmarshalCommunity`
of those bytes succeeds with a community that `Equals` it. -/
theorem community_binary_roundtrip (P : Primitives) (identity : Identity) (signer : Signer)
    (name metadata : QualifiedContent) (c : Community) (spare : List Byte)
    (hnew : (As identity signer).NewCommunity P name metadata = .ok c)
    (hname : name.WellFormed P) (hmeta : metadata.WellFormed P)
    (hauthor : identity.ID.WellFormed P) (hid : c.id.WellFormed P)
    (hsig : c.Signature.WellFormed P) :
    ∃ b, c.MarshalBinary P = .ok b ∧
      ∃ c2, UnmarshalCommunity P ⟨b, spare⟩ = .ok c2 ∧ c.Equals c2 = true := by
  obtain ⟨h1, h2, h3, _⟩ := Builder.NewCommunity_fields P (As identity signer) name metadata c hnew
  have hauthor2 : c.Author.WellFormed P := by rw [h3]; exact hauthor
  obtain ⟨b, hb, hu⟩ := Community.unmarshal_marshal P c spare (by rw [h1]; exact hname)
    (by rw [h2]; exact hmeta) hauthor2 hid hsig
  exact ⟨b, hb, c, hu, Community.Equals_same_community c⟩

/-- The round trip at the sample community. -/
theorem community_binary_roundtrip_witness :
    ((As sampleIdentity sampleSigner).NewCommunity samplePrimitives
        ⟨⟨1, 4⟩, [78, 97, 109, 101]⟩ ⟨⟨1, 0⟩, []⟩ = .ok sampleCommunity ∧
      (⟨⟨1, 4⟩, [78, 97, 109, 101]⟩ : QualifiedContent).WellFormed samplePrimitives ∧
      (⟨⟨1, 0⟩, []⟩ : QualifiedContent).WellFormed samplePrimitives ∧
      sampleIdentity.ID.WellFormed samplePrimitives ∧
      sampleCommunity.id.WellFormed samplePrimitives ∧
      sampleCommunity.Signature.WellFormed samplePrimitives) ∧
    ∃ b, sampleCommunity.MarshalBinary samplePrimitives = .ok b ∧
      ∃ c2, UnmarshalCommunity samplePrimitives ⟨b, []⟩ = .ok c2 ∧
        sampleCommunity.Equals c2 = true :=
  ⟨⟨by decide, by decide, by decide, by decide, by decide, by decide⟩,
    community_binary_roundtrip samplePrimitives sampleIdentity sampleSigner
      ⟨⟨1, 4⟩, [78, 97, 109, 101]⟩ ⟨⟨1, 0⟩, []⟩ sampleCommunity []
      (by decide) (by decide) (by decide) (by decide) (by decide) (by decide)⟩

/-! ## Claims on text forms, binary layout and constructors -/

/-- C12: for a qualified value whose descriptor marshals to the text `dt`: a hash,
key or signature, and a content value of a type other than UTF-8 string and
JSON, whose blob marshals to the text `bt`, has the text `dt ++ "__" ++ bt`; a
content value of type UTF-8 string or JSON has the text `dt` followed by the raw
bytes of the blob. -/
theorem qualified_marshal_text (P : Primitives) (f : Family) (q : Qualified f) (dt : Text)
    (hd : q.Descriptor.MarshalText P = .ok dt) :
    ((f ≠ Family.content ∨ (q.Descriptor.Typ ≠ P.ContentTypeUTF8String ∧
        q.Descriptor.Typ ≠ P.ContentTypeJSON)) →
      ∀ bt, P.blobMarshalText q.Blob = .ok bt →
        q.MarshalText P = .ok (dt ++ textBytes "__" ++ bt)) ∧
    (f = Family.content →
      (q.Descriptor.Typ = P.ContentTypeUTF8String ∨ q.Descriptor.Typ = P.ContentTypeJSON) →
      q.MarshalText P = .ok (dt ++ q.Blob)) := by
  constructor
  · intro hcase bt hb
    cases f with
    | content =>
      have hne : ¬ (q.Descriptor.Typ = P.ContentTypeUTF8String ∨
          q.Descriptor.Typ = P.ContentTypeJSON) := by
        rcases hcase with h | h
        · exact absurd rfl h
        · exact fun h2 => h2.elim h.1 h.2
      simp [Qualified.MarshalText, hne, marshalTextQualified, hd, hb]
    | hash => simp [Qualified.MarshalText, marshalTextQualified, hd, hb]
    | key => simp [Qualified.MarshalText, marshalTextQualified, hd, hb]
    | signature => simp [Qualified.MarshalText, marshalTextQualified, hd, hb]
  · intro hf hcase
    subst hf
    simp [Qualified.MarshalText, hcase, hd]

/-- A hash with a two-byte blob and a UTF-8 content value with the blob "hi". -/
theorem qualified_marshal_text_witness :
    ((⟨1, 2⟩ : HashDescriptor).MarshalText samplePrimitives = .ok (textBytes "T1_2") ∧
      (⟨⟨1, 2⟩, [3, 4]⟩ : QualifiedHash).MarshalText samplePrimitives
        = .ok (textBytes "T1_2" ++ textBytes "__" ++ [3, 4])) ∧
    ((⟨1, 2⟩ : ContentDescriptor).MarshalText samplePrimitives = .ok (textBytes "T1_2") ∧
      (⟨⟨1, 2⟩, [104, 105]⟩ : QualifiedContent).MarshalText samplePrimitives
        = .ok (textBytes "T1_2" ++ [104, 105])) :=
  ⟨⟨rfl,
    (qualified_marshal_text samplePrimitives Family.hash ⟨⟨1, 2⟩, [3, 4]⟩ (textBytes "T1_2")
      (rfl)).1 (Or.inl (by decide)) [3, 4] (rfl)⟩,
   ⟨rfl,
    (qualified_marshal_text samplePrimitives Family.content ⟨⟨1, 2⟩, [104, 105]⟩
      (textBytes "T1_2") (rfl)).2 rfl (Or.inl (by decide))⟩⟩

/-- C13: a descriptor that a constructor returned for the type tag `t` and the
length `length` has, when the type has the text token `tok`, exactly the text
`tok ++ "_" ++ decimal(length)`; for the length 5 that is `tok ++ "_5"`; and
`MarshalText` returns an error only when marshalling the type or the length to
text returned it. -/
theorem descriptor_marshal_text (P : Primitives) (f : Family) (t : Nat) (length : Int)
    (d : Descriptor f) (hnew : Descriptor.New P f t length = .ok d) :
    (∀ tok, P.typeMarshalText f t = .ok tok →
      d.MarshalText P = .ok (tok ++ textBytes "_" ++ textBytes (Nat.repr length.toNat))) ∧
    (length = 5 → ∀ tok, P.typeMarshalText f t = .ok tok →
      d.MarshalText P = .ok (tok ++ textBytes "_5")) ∧
    (∀ err, d.MarshalText P = .error err →
      P.typeMarshalText f t = .error err ∨ lengthMarshalText d.Length = .error err) := by
  obtain ⟨_, _, hd⟩ := (Descriptor.New_ok_iff P f t length d).mp hnew
  subst hd
  have hgen : ∀ tok, P.typeMarshalText f t = .ok tok →
      Descriptor.MarshalText P (⟨t, length.toNat⟩ : Descriptor f)
        = .ok (tok ++ textBytes "_" ++ textBytes (Nat.repr length.toNat)) := by
    intro tok htok
    simp [Descriptor.MarshalText, marshalTextDescriptor, lengthMarshalText, htok]
  refine ⟨hgen, ?_, ?_⟩
  · intro h5 tok htok
    rw [hgen tok htok, h5]
    have : textBytes "_" ++ textBytes (Nat.repr (5 : Int).toNat) = textBytes "_5" := by decide
    rw [List.append_assoc, this]
  · intro err herr
    cases htok : P.typeMarshalText f t with
    | error e2 =>
      left
      simp [Descriptor.MarshalText, marshalTextDescriptor, lengthMarshalText, htok] at herr
      rw [herr]
    | ok tok =>
      rw [hgen tok htok] at herr
      cases herr

/-- The hash descriptor of type 1 and length 5 has the text "T1_5". -/
theorem descriptor_marshal_text_witness :
    Descriptor.New samplePrimitives Family.hash 1 5 = .ok ⟨1, 5⟩ ∧
      (⟨1, 5⟩ : HashDescriptor).MarshalText samplePrimitives = .ok (textBytes "T1" ++ textBytes "_5") :=
  ⟨by decide,
    (descriptor_marshal_text samplePrimitives Family.hash 1 5 ⟨1, 5⟩ (by decide)).2.1 rfl
      (textBytes "T1") rfl⟩

/-- C14: the binary form of a qualified value is the binary form of the type of
its descriptor, then that of the length, then the raw bytes of the blob, and
nothing else; its length is `sizeofDescriptor + len(q.Blob)`. -/
theorem qualified_marshal_binary_layout (P : Primitives) (f : Family) (q : Qualified f) :
    ∃ tb lb, (Descriptor.typeField P f).MarshalBinary q.Descriptor = .ok tb ∧
      (Descriptor.lengthField P f).MarshalBinary q.Descriptor = .ok lb ∧
      q.MarshalBinary P = .ok (tb ++ lb ++ q.Blob) ∧
      tb.length = P.sizeofgenericType ∧ lb.length = P.sizeofContentLength ∧
      (tb ++ lb ++ q.Blob).length = P.sizeofDescriptor + q.Blob.length := by
  refine ⟨encodeFixed P.sizeofgenericType q.Descriptor.Typ,
    encodeFixed P.sizeofContentLength q.Descriptor.Length, rfl, rfl, ?_,
    encodeFixed_length _ _, encodeFixed_length _ _, ?_⟩
  · rw [Qualified.MarshalBinary_eq]; rfl
  · simp [encodeFixed_length, Primitives.sizeofDescriptor, Nat.add_assoc]

/-- A content value of type 1 with three bytes marshals to six bytes. -/
theorem qualified_marshal_binary_layout_witness :
    (⟨⟨1, 3⟩, [7, 8, 9]⟩ : QualifiedContent).MarshalBinary samplePrimitives
        = .ok [1, 0, 3, 7, 8, 9] ∧
    ∃ tb lb, (Descriptor.typeField samplePrimitives Family.content).MarshalBinary ⟨1, 3⟩ = .ok tb ∧
      (Descriptor.lengthField samplePrimitives Family.content).MarshalBinary ⟨1, 3⟩ = .ok lb ∧
      (⟨⟨1, 3⟩, [7, 8, 9]⟩ : QualifiedContent).MarshalBinary samplePrimitives
        = .ok (tb ++ lb ++ [7, 8, 9]) ∧
      tb.length = 1 ∧ lb.length = 2 ∧
      (tb ++ lb ++ ([7, 8, 9] : List Byte)).length = samplePrimitives.sizeofDescriptor + 3 :=
  ⟨by decide, qualified_marshal_binary_layout samplePrimitives Family.content ⟨⟨1, 3⟩, [7, 8, 9]⟩⟩

/-- C19: for each descriptor family, `NewXDescriptor(t, length)` fails with the
length-out-of-range error when the length is outside the range of a
`ContentLength` (above the maximum, or negative), and otherwise returns the
descriptor of type `t` whose length equals `length`. -/
theorem new_descriptor_range (P : Primitives) (f : Family) (t : Nat) (length : Int) :
    ((length < 0 ∨ (P.MaxContentLength : Int) < length) →
      Descriptor.New P f t length = .error (.lengthOutOfRange length)) ∧
    ((0 ≤ length ∧ length ≤ (P.MaxContentLength : Int)) →
      ∃ d, Descriptor.New P f t length = .ok d ∧ d.Typ = t ∧ (d.Length : Int) = length) := by
  constructor
  · intro h
    have h2 : length < 0 ∨ length > (P.MaxContentLength : Int) := by omega
    simp [Descriptor.New, NewContentLength, h2]
  · rintro ⟨h0, h1⟩
    refine ⟨⟨t, length.toNat⟩, (Descriptor.New_ok_iff P f t length _).mpr ⟨h0, h1, rfl⟩, rfl, ?_⟩
    simp [Int.toNat_of_nonneg h0]

/-- Lengths 65536 and 65535 with two-byte lengths. -/
theorem new_descriptor_range_witness :
    Descriptor.New samplePrimitives Family.key 1 65536 = .error (.lengthOutOfRange 65536) ∧
    ∃ d, Descriptor.New samplePrimitives Family.key 1 65535 = .ok d ∧ d.Typ = 1 ∧
      (d.Length : Int) = 65535 :=
  ⟨(new_descriptor_range samplePrimitives Family.key 1 65536).1 (Or.inr (by decide)),
    (new_descriptor_range samplePrimitives Family.key 1 65535).2 ⟨by decide, by decide⟩⟩

/-! ## More lemmas on the memory store -/

theorem MemoryStore.Get_of_key {N : Type} (P : Primitives) (m : MemoryStore N)
    (id : QualifiedHash) (key : Text) (hk : Qualified.MarshalString P id = .ok key) :
    m.Get P id = m.GetID key := by
  simp [MemoryStore.Get, hk]

theorem MemoryStore.GetID_err {N : Type} (m : MemoryStore N) (k : Text) :
    (m.GetID k).err = none := by
  unfold MemoryStore.GetID
  cases m.Items.lookup k <;> rfl

theorem MemoryStore.mem_of_lookup {N : Type} (items : List (Text × Option N)) (k : Text)
    (v : Option N) (h : items.lookup k = some v) : (k, v) ∈ items := by
  induction items with
  | nil => simp at h
  | cons p rest ih =>
    obtain ⟨pk, pv⟩ := p
    rw [List.lookup_cons] at h
    by_cases hk : k = pk
    · subst hk
      simp only [beq_self_eq_true, Option.some.injEq] at h
      subst h
      exact List.mem_cons_self _ _
    · have hb : (k == pk) = false := by simpa using hk
      simp only [hb] at h
      exact List.mem_cons_of_mem _ (ih h)

theorem MemoryStore.mem_assign {N : Type} (items : List (Text × Option N)) (k : Text)
    (v : Option N) (e : Text × Option N) (h : e ∈ MemoryStore.assign items k v) :
    e ∈ items ∨ e = (k, v) := by
  unfold MemoryStore.assign at h
  rcases List.mem_append.mp h with h1 | h2
  · exact Or.inl (List.mem_filter.mp h1).1
  · exact Or.inr (by simpa using h2)

/-- What `Add` of a node does to a memory store: nothing but the error when the
ID has no text, nothing when the key is present, and otherwise the entry is
assigned. -/
theorem MemoryStore.Add_cases {N : Type} [Node N] (P : Primitives) (s : MemoryStore N) (n : N) :
    (∃ err, Qualified.MarshalString P (Node.ID n) = .error err ∧
      s.Add P (some n) = .returned (s, some err)) ∨
    (∃ key, Qualified.MarshalString P (Node.ID n) = .ok key ∧ (s.GetID key).has = true ∧
      s.Add P (some n) = .returned (s, none)) ∨
    (∃ key, Qualified.MarshalString P (Node.ID n) = .ok key ∧ (s.GetID key).has = false ∧
      s.Add P (some n) = .returned (⟨MemoryStore.assign s.Items key (some n)⟩, none)) := by
  cases hm : Qualified.MarshalString P (Node.ID n) with
  | error err => exact Or.inl ⟨err, rfl, by simp [MemoryStore.Add, hm]⟩
  | ok key =>
    by_cases hh : (s.GetID key).has = true
    · exact Or.inr (Or.inl ⟨key, rfl, hh, by simp [MemoryStore.Add, hm, MemoryStore.AddID, hh]⟩)
    · have hf : (s.GetID key).has = false := by simpa using hh
      exact Or.inr (Or.inr ⟨key, rfl, hf, by simp [MemoryStore.Add, hm, MemoryStore.AddID, hf]⟩)

/-- `Add` on a memory store keeps every entry the store held. -/
theorem MemoryStore.Add_keeps_entry {N : Type} [Node N] (P : Primitives) (s s1 : MemoryStore N)
    (n : N) (e : Option Error) (k : Text) (v : Option N)
    (h : s.Add P (some n) = .returned (s1, e)) (hk : s.Items.lookup k = some v) :
    s1.Items.lookup k = some v := by
  rcases MemoryStore.Add_cases P s n with ⟨err, _, ha⟩ | ⟨key, _, _, ha⟩ | ⟨key, _, hf, ha⟩
  · rw [ha] at h; cases h; exact hk
  · rw [ha] at h; cases h; exact hk
  · rw [ha] at h; cases h
    have hne : k ≠ key := by
      intro heq
      subst heq
      have : (s.GetID k).has = true := (MemoryStore.GetID_has_iff s k).mpr ⟨v, hk⟩
      rw [hf] at this
      cases this
    show (MemoryStore.assign s.Items key (some n)).lookup k = some v
    rw [MemoryStore.lookup_assign_ne _ _ _ _ hne]
    exact hk

/-- A key present after `Add` of a node was present before or is the text of the
node's ID. -/
theorem MemoryStore.Add_key_cases {N : Type} [Node N] (P : Primitives) (s s1 : MemoryStore N)
    (n : N) (e : Option Error) (k : Text)
    (h : s.Add P (some n) = .returned (s1, e)) (hk : (s1.GetID k).has = true) :
    (s.GetID k).has = true ∨ Qualified.MarshalString P (Node.ID n) = .ok k := by
  rcases MemoryStore.Add_cases P s n with ⟨err, _, ha⟩ | ⟨key, _, _, ha⟩ | ⟨key, hm, _, ha⟩
  · rw [ha] at h; cases h; exact Or.inl hk
  · rw [ha] at h; cases h; exact Or.inl hk
  · rw [ha] at h; cases h
    by_cases hkey : k = key
    · subst hkey; exact Or.inr hm
    · left
      rw [MemoryStore.GetID_has_iff] at hk ⊢
      obtain ⟨v, hv⟩ := hk
      have hv2 : (MemoryStore.assign s.Items key (some n)).lookup k = some v := hv
      rw [MemoryStore.lookup_assign_ne _ _ _ _ hkey] at hv2
      exact ⟨v, hv2⟩

/-- `Add` of a node keeps a memory store well keyed. -/
theorem MemoryStore.Add_WellKeyed {N : Type} [Node N] (P : Primitives) (s s1 : MemoryStore N)
    (n : N) (e : Option Error) (h : s.Add P (some n) = .returned (s1, e))
    (hw : s.WellKeyed P) : s1.WellKeyed P := by
  rcases MemoryStore.Add_cases P s n with ⟨err, _, ha⟩ | ⟨key, _, _, ha⟩ | ⟨key, hm, _, ha⟩
  · rw [ha] at h; cases h; exact hw
  · rw [ha] at h; cases h; exact hw
  · rw [ha] at h; cases h
    intro k v hmem
    rcases MemoryStore.mem_assign s.Items key (some n) (k, v) hmem with h1 | h2
    · exact hw k v h1
    · simp only [Prod.mk.injEq] at h2
      obtain ⟨hk, hv⟩ := h2
      subst hk; subst hv
      exact ⟨n, rfl, hm⟩

/-- In a well-keyed store a hit of `GetID` returns a node whose ID has the key as
its text. -/
theorem MemoryStore.WellKeyed_GetID {N : Type} [Node N] (P : Primitives) (s : MemoryStore N)
    (hw : s.WellKeyed P) (k : Text) (hh : (s.GetID k).has = true) :
    ∃ n, s.GetID k = ⟨some n, true, none⟩ ∧ Qualified.MarshalString P (Node.ID n) = .ok k := by
  obtain ⟨v, hv⟩ := (MemoryStore.GetID_has_iff s k).mp hh
  obtain ⟨n, hn, hm⟩ := hw k v (MemoryStore.mem_of_lookup _ _ _ hv)
  subst hn
  exact ⟨n, by simp [MemoryStore.GetID, hv], hm⟩

/-- C16: for a cache store over two memory stores, after `CacheStore.Add(Y)` has
returned nil, `Get` of the ID of `Y` on the Cache and on the Back store both
return found=true with a nil error. -/
theorem cache_store_add_then_get {N : Type} [Node N] (P : Primitives)
    (m m1 : CacheStore (MemoryStore N) (MemoryStore N)) (y : N)
    (h : CacheStore.Add (MemoryStore.asStore P) (MemoryStore.asStore P) m (some y)
      = .returned (m1, none)) :
    ((m1.Cache.Get P (Node.ID y)).has = true ∧ (m1.Cache.Get P (Node.ID y)).err = none) ∧
    ((m1.Back.Get P (Node.ID y)).has = true ∧ (m1.Back.Get P (Node.ID y)).err = none) := by
  simp only [CacheStore.Add, MemoryStore.asStore] at h
  cases hb : MemoryStore.Add P m.Back (some y) with
  | panicked => simp [hb] at h
  | returned rb =>
    obtain ⟨b1, eb⟩ := rb
    cases eb with
    | some err => simp [hb] at h
    | none =>
      simp only [hb] at h
      cases hc : MemoryStore.Add P m.Cache (some y) with
      | panicked => simp [hc] at h
      | returned rc =>
        obtain ⟨c1, ec⟩ := rc
        cases ec with
        | some err => simp [hc] at h
        | none =>
          simp only [hc, Outcome.returned.injEq, Prod.mk.injEq, and_true] at h
          subst h
          obtain ⟨key, hk, hcb⟩ := MemoryStore.Get_after_Add P m.Back b1 y hb
          obtain ⟨key2, hk2, hcc⟩ := MemoryStore.Get_after_Add P m.Cache c1 y hc
          rw [hk] at hk2
          cases hk2
          simp only [MemoryStore.Get_of_key P _ _ key hk, MemoryStore.GetID_err, hcb, hcc,
            and_self]

/-- The sample node added through a cache store over two empty memory stores. -/
theorem cache_store_add_then_get_witness :
    CacheStore.Add (MemoryStore.asStore samplePrimitives) (MemoryStore.asStore samplePrimitives)
        ⟨MemoryStore.New, MemoryStore.New⟩ (some sampleNode)
        = .returned (⟨sampleStore, sampleStore⟩, none) ∧
    (((sampleStore.Get samplePrimitives (Node.ID sampleNode)).has = true ∧
        (sampleStore.Get samplePrimitives (Node.ID sampleNode)).err = none) ∧
      ((sampleStore.Get samplePrimitives (Node.ID sampleNode)).has = true ∧
        (sampleStore.Get samplePrimitives (Node.ID sampleNode)).err = none)) :=
  ⟨by decide,
    cache_store_add_then_get samplePrimitives ⟨MemoryStore.New, MemoryStore.New⟩
      ⟨sampleStore, sampleStore⟩ sampleNode (by decide)⟩

/-- C17: for a memory store and an ID whose text encoding succeeds, `Get` returns
found=false with a nil error when nothing is stored under that text, and the node
stored under it with found=true and a nil error otherwise; after `Add(n)` on a
store that did not hold the ID of `n`, `Get` of that ID returns `n` with
found=true and a nil error; and `Get` leaves the store as it was. -/
theorem memory_store_get {N : Type} [Node N] (P : Primitives) (m : MemoryStore N)
    (id : QualifiedHash) (key : Text) (hk : Qualified.MarshalString P id = .ok key) :
    (m.Items.lookup key = none → m.Get P id = ⟨none, false, none⟩) ∧
    (∀ v, m.Items.lookup key = some v → m.Get P id = ⟨v, true, none⟩) ∧
    (∀ (n : N) (m1 : MemoryStore N), (m.Get P (Node.ID n)).has = false →
      m.Add P (some n) = .returned (m1, none) →
      m1.Get P (Node.ID n) = ⟨some n, true, none⟩) ∧
    (MemoryStore.asStore P).Get m id = .returned (m, m.Get P id) := by
  refine ⟨?_, ?_, ?_, rfl⟩
  · intro h
    simp [MemoryStore.Get, hk, MemoryStore.GetID, h]
  · intro v h
    simp [MemoryStore.Get, hk, MemoryStore.GetID, h]
  · intro n m1 hmiss hadd
    rcases MemoryStore.Add_cases P m n with ⟨err, _, ha⟩ | ⟨k2, hm, hh, ha⟩ | ⟨k2, hm, _, ha⟩
    · rw [ha] at hadd; cases hadd
    · rw [MemoryStore.Get_of_key P m _ k2 hm, hh] at hmiss
      cases hmiss
    · rw [ha] at hadd
      cases hadd
      rw [MemoryStore.Get_of_key P _ _ k2 hm]
      simp [MemoryStore.GetID, MemoryStore.lookup_assign_self]

/-- A miss on the empty store and a hit after `Add` of the sample node. -/
theorem memory_store_get_witness :
    Qualified.MarshalString samplePrimitives sampleNode.id = .ok (textBytes "T1_2__" ++ [3, 4]) ∧
    ((MemoryStore.New : MemoryStore SampleNode).Get samplePrimitives sampleNode.id
        = ⟨none, false, none⟩) ∧
    sampleStore.Get samplePrimitives (Node.ID sampleNode) = ⟨some sampleNode, true, none⟩ :=
  ⟨rfl,
    (memory_store_get samplePrimitives (MemoryStore.New : MemoryStore SampleNode) sampleNode.id
      (textBytes "T1_2__" ++ [3, 4]) rfl).1 rfl,
    (memory_store_get samplePrimitives (MemoryStore.New : MemoryStore SampleNode) sampleNode.id
      (textBytes "T1_2__" ++ [3, 4]) rfl).2.2.1 sampleNode sampleStore (by decide) (by decide)⟩

/-! ## CopyInto -/

theorem MemoryStore.copyLoop_append {N τ : Type}
    (add : τ → Option N → Outcome (τ × Option Error)) (pre post : List (Text × Option N))
    (other : τ) :
    MemoryStore.copyLoop add (pre ++ post) other =
      match MemoryStore.copyLoop add pre other with
      | .panicked => .panicked
      | .returned (o0, some err) => .returned (o0, some err)
      | .returned (o0, none) => MemoryStore.copyLoop add post o0 := by
  induction pre generalizing other with
  | nil => simp [MemoryStore.copyLoop]
  | cons p rest ih =>
    obtain ⟨pk, pv⟩ := p
    simp only [List.cons_append, MemoryStore.copyLoop]
    cases hadd : add other pv with
    | panicked => rfl
    | returned r =>
      obtain ⟨o1, e⟩ := r
      cases e with
      | some err => rfl
      | none => exact ih o1

/-- A loop that ended without error added every node: each call of `add` was
made on the state the calls before it left, and returned nil. -/
theorem MemoryStore.copyLoop_all_added {N τ : Type}
    (add : τ → Option N → Outcome (τ × Option Error)) (items : List (Text × Option N))
    (other o1 : τ) (h : MemoryStore.copyLoop add items other = .returned (o1, none))
    (pre post : List (Text × Option N)) (k : Text) (node : Option N)
    (hsplit : items = pre ++ (k, node) :: post) :
    ∃ o0 o2, MemoryStore.copyLoop add pre other = .returned (o0, none) ∧
      add o0 node = .returned (o2, none) := by
  subst hsplit
  rw [MemoryStore.copyLoop_append] at h
  cases hpre : MemoryStore.copyLoop add pre other with
  | panicked => simp [hpre] at h
  | returned r =>
    obtain ⟨o0, e⟩ := r
    cases e with
    | some err => simp [hpre] at h
    | none =>
      simp only [hpre, MemoryStore.copyLoop] at h
      cases hadd : add o0 node with
      | panicked => simp [hadd] at h
      | returned r2 =>
        obtain ⟨o2, e2⟩ := r2
        cases e2 with
        | some err => simp [hadd] at h
        | none => exact ⟨o0, o2, rfl, hadd⟩

/-- The loop of `CopyInto` ends in one of three ways: every call returned nil; a
call returned an error after the calls before it returned nil; or a call
panicked. -/
theorem MemoryStore.copyLoop_outcome {N τ : Type}
    (add : τ → Option N → Outcome (τ × Option Error)) (items : List (Text × Option N))
    (other : τ) :
    (∃ o1, MemoryStore.copyLoop add items other = .returned (o1, none)) ∨
    (∃ pre k node post o0 o1 err, items = pre ++ (k, node) :: post ∧
      MemoryStore.copyLoop add pre other = .returned (o0, none) ∧
      add o0 node = .returned (o1, some err) ∧
      MemoryStore.copyLoop add items other = .returned (o1, some err)) ∨
    (∃ pre k node post o0, items = pre ++ (k, node) :: post ∧
      MemoryStore.copyLoop add pre other = .returned (o0, none) ∧
      add o0 node = .panicked ∧ MemoryStore.copyLoop add items other = .panicked) := by
  induction items generalizing other with
  | nil => exact Or.inl ⟨other, rfl⟩
  | cons p rest ih =>
    obtain ⟨pk, pv⟩ := p
    cases hadd : add other pv with
    | panicked =>
      exact Or.inr (Or.inr ⟨[], pk, pv, rest, other, rfl, rfl, hadd,
        by simp [MemoryStore.copyLoop, hadd]⟩)
    | returned r =>
      obtain ⟨o1, e⟩ := r
      cases e with
      | some err =>
        exact Or.inr (Or.inl ⟨[], pk, pv, rest, other, o1, err, rfl, rfl, hadd,
          by simp [MemoryStore.copyLoop, hadd]⟩)
      | none =>
        have hstep : ∀ l, MemoryStore.copyLoop add ((pk, pv) :: l) other
            = MemoryStore.copyLoop add l o1 := by
          intro l; simp [MemoryStore.copyLoop, hadd]
        rcases ih o1 with ⟨o2, h2⟩ | ⟨pre, k, node, post, o0, o2, err, hs, hp, ha, hr⟩ |
            ⟨pre, k, node, post, o0, hs, hp, ha, hr⟩
        · exact Or.inl ⟨o2, by rw [hstep, h2]⟩
        · exact Or.inr (Or.inl ⟨(pk, pv) :: pre, k, node, post, o0, o2, err, by rw [hs]; rfl,
            by rw [hstep, hp], ha, by rw [hstep, hr]⟩)
        · exact Or.inr (Or.inr ⟨(pk, pv) :: pre, k, node, post, o0, by rw [hs]; rfl,
            by rw [hstep, hp], ha, by rw [hstep, hr]⟩)

/-- The loop of `CopyInto` from well-keyed entries into a memory store returns
nil and keeps every entry the store held. -/
theorem MemoryStore.copyLoop_total {N : Type} [Node N] (P : Primitives)
    (items : List (Text × Option N)) (s : MemoryStore N)
    (hw : ∀ k v, (k, v) ∈ items →
      ∃ n, v = some n ∧ Qualified.MarshalString P (Node.ID n) = .ok k) :
    ∃ s1, MemoryStore.copyLoop (fun o node => MemoryStore.Add P o node) items s
        = .returned (s1, none) ∧
      ∀ k v, s.Items.lookup k = some v → s1.Items.lookup k = some v := by
  induction items generalizing s with
  | nil => exact ⟨s, rfl, fun _ _ h => h⟩
  | cons p rest ih =>
    obtain ⟨pk, pv⟩ := p
    obtain ⟨n, hn, hm⟩ := hw pk pv (List.mem_cons_self _ _)
    subst hn
    have hrest : ∀ k v, (k, v) ∈ rest →
        ∃ n, v = some n ∧ Qualified.MarshalString P (Node.ID n) = .ok k :=
      fun k v h => hw k v (List.mem_cons_of_mem _ h)
    rcases MemoryStore.Add_cases P s n with ⟨err, he, _⟩ | ⟨key, _, _, ha⟩ | ⟨key, _, _, ha⟩
    · rw [hm] at he; cases he
    · obtain ⟨s1, h1, hkeep⟩ := ih s hrest
      exact ⟨s1, by simp only [MemoryStore.copyLoop, ha, h1], hkeep⟩
    · obtain ⟨s1, h1, hkeep⟩ := ih ⟨MemoryStore.assign s.Items key (some n)⟩ hrest
      refine ⟨s1, by simp only [MemoryStore.copyLoop, ha, h1], ?_⟩
      intro k v hk
      exact hkeep k v (MemoryStore.Add_keeps_entry P s _ n none k v ha hk)

/-- C20 as stated fails: a memory store that holds a node under a key other than
the text of the node's ID is copied into the empty memory store without error,
and its key is not a key of the other store afterwards. -/
theorem copy_into_key_counterexample :
    misKeyedStore.CopyInto (MemoryStore SampleNode)
        (fun o node => MemoryStore.Add samplePrimitives o node) MemoryStore.New
        = .returned ((misKeyedStore, sampleStore2), none) ∧
      (misKeyedStore.Get samplePrimitives sampleNode.id).has = true ∧
      (sampleStore2.Get samplePrimitives sampleNode.id).has = false := by
  decide

/-- C20, amended: `CopyInto` leaves the memory store as it was; it calls
`other.Add` on the nodes until a call returns an error, which it returns with the
other store as that call left it; it returns nil when every call returned nil,
each made on the state the calls before it left.  When the other store is a
memory store and every entry of `m` is a node stored under the text of its own
ID, the call returns nil, every key of `m` is a key of the other store
afterwards, and the entries the other store held are unchanged. -/
theorem memory_store_copy_into {N τ : Type} [Node N] (P : Primitives) (m : MemoryStore N)
    (add : τ → Option N → Outcome (τ × Option Error)) (other : τ) :
    (∀ r, m.CopyInto τ add other = .returned r → r.1.1 = m) ∧
    (∀ pre k node post o0 o1 err, m.Items = pre ++ (k, node) :: post →
      MemoryStore.copyLoop add pre other = .returned (o0, none) →
      add o0 node = .returned (o1, some err) →
      m.CopyInto τ add other = .returned ((m, o1), some err)) ∧
    (∀ o1, m.CopyInto τ add other = .returned ((m, o1), none) →
      ∀ pre k node post, m.Items = pre ++ (k, node) :: post →
        ∃ o0 o2, MemoryStore.copyLoop add pre other = .returned (o0, none) ∧
          add o0 node = .returned (o2, none)) ∧
    ((∃ o1, m.CopyInto τ add other = .returned ((m, o1), none)) ∨
      (∃ pre k node post o0 o1 err, m.Items = pre ++ (k, node) :: post ∧
        MemoryStore.copyLoop add pre other = .returned (o0, none) ∧
        add o0 node = .returned (o1, some err)) ∨
      m.CopyInto τ add other = .panicked) ∧
    (∀ mo : MemoryStore N, m.WellKeyed P →
      ∃ o1, m.CopyInto (MemoryStore N) (fun o node => MemoryStore.Add P o node) mo
          = .returned ((m, o1), none) ∧
        (∀ k, (m.GetID k).has = true → (o1.GetID k).has = true) ∧
        (∀ k v, mo.Items.lookup k = some v → o1.Items.lookup k = some v)) := by
  refine ⟨?_, ?_, ?_, ?_, ?_⟩
  · intro r h
    unfold MemoryStore.CopyInto at h
    cases hl : MemoryStore.copyLoop add m.Items other with
    | panicked => simp [hl] at h
    | returned res =>
      simp only [hl, Outcome.returned.injEq] at h
      rw [← h]
  · intro pre k node post o0 o1 err hsplit hpre hadd
    unfold MemoryStore.CopyInto
    rw [hsplit, MemoryStore.copyLoop_append, hpre]
    simp [MemoryStore.copyLoop, hadd]
  · intro o1 h pre k node post hsplit
    unfold MemoryStore.CopyInto at h
    cases hl : MemoryStore.copyLoop add m.Items other with
    | panicked => simp [hl] at h
    | returned res =>
      obtain ⟨o, e⟩ := res
      simp only [hl, Outcome.returned.injEq, Prod.mk.injEq, true_and] at h
      obtain ⟨ho, he⟩ := h
      subst ho; subst he
      exact MemoryStore.copyLoop_all_added add m.Items other o hl pre post k node hsplit
  · rcases MemoryStore.copyLoop_outcome add m.Items other with ⟨o1, h⟩ |
        ⟨pre, k, node, post, o0, o1, err, hs, hp, ha, _⟩ | ⟨_, _, _, _, _, _, _, _, hr⟩
    · exact Or.inl ⟨o1, by simp [MemoryStore.CopyInto, h]⟩
    · exact Or.inr (Or.inl ⟨pre, k, node, post, o0, o1, err, hs, hp, ha⟩)
    · exact Or.inr (Or.inr (by simp [MemoryStore.CopyInto, hr]))
  · intro mo hw
    obtain ⟨o1, hl, hkeep⟩ := MemoryStore.copyLoop_total P m.Items mo hw
    refine ⟨o1, by simp [MemoryStore.CopyInto, hl], ?_, hkeep⟩
    intro k hk
    obtain ⟨v, hv⟩ := (MemoryStore.GetID_has_iff m k).mp hk
    obtain ⟨n, hn, hm⟩ := hw k v (MemoryStore.mem_of_lookup _ _ _ hv)
    subst hn
    obtain ⟨key, hkey, hhas⟩ :=
      (MemoryStore.copyLoop_memory P m.Items mo o1 hl).2 k n (MemoryStore.mem_of_lookup _ _ _ hv)
    rw [hm] at hkey
    cases hkey
    exact hhas

/-- The store of the first sample node copied into the store of the second. -/
theorem memory_store_copy_into_witness :
    sampleStore.WellKeyed samplePrimitives ∧
    ∃ o1, sampleStore.CopyInto (MemoryStore SampleNode)
        (fun o node => MemoryStore.Add samplePrimitives o node) sampleStore2
        = .returned ((sampleStore, o1), none) ∧
      (∀ k, (sampleStore.GetID k).has = true → (o1.GetID k).has = true) ∧
      (∀ k v, sampleStore2.Items.lookup k = some v → o1.Items.lookup k = some v) :=
  have hw : sampleStore.WellKeyed samplePrimitives := by
    intro k v hmem
    simp only [sampleStore, List.mem_singleton, Prod.mk.injEq] at hmem
    obtain ⟨hk, hv⟩ := hmem
    exact ⟨sampleNode, hv, by rw [hk]; rfl⟩
  ⟨hw, (memory_store_copy_into samplePrimitives sampleStore
    (fun o node => MemoryStore.Add samplePrimitives o node) sampleStore2).2.2.2.2 sampleStore2 hw⟩

/-! ## The cache invariant -/

theorem MemoryStore.Add_returns {N : Type} [Node N] (P : Primitives) (s : MemoryStore N) (n : N) :
    ∃ s1 e, s.Add P (some n) = .returned (s1, e) := by
  rcases MemoryStore.Add_cases P s n with ⟨err, _, ha⟩ | ⟨key, _, _, ha⟩ | ⟨key, _, _, ha⟩
  · exact ⟨_, _, ha⟩
  · exact ⟨_, _, ha⟩
  · exact ⟨_, _, ha⟩

/-- `CacheStore.Add` of a node on consistent memory tiers returns and leaves them
consistent. -/
theorem CacheStore.Add_consistent {N : Type} [Node N] (P : Primitives)
    (s : CacheStore (MemoryStore N) (MemoryStore N)) (n : N) (hinv : s.Consistent P) :
    ∃ s1 e, CacheStore.Add (MemoryStore.asStore P) (MemoryStore.asStore P) s (some n)
        = .returned (s1, e) ∧ s1.Consistent P := by
  obtain ⟨hwc, hwb, hsub⟩ := hinv
  obtain ⟨b1, eb, hb⟩ := MemoryStore.Add_returns P s.Back n
  have hwb1 := MemoryStore.Add_WellKeyed P s.Back b1 n eb hb hwb
  cases eb with
  | some err =>
    refine ⟨⟨s.Cache, b1⟩, some err, by simp [CacheStore.Add, MemoryStore.asStore, hb], hwc, hwb1, ?_⟩
    intro k hk
    exact MemoryStore.Add_keeps_key P s.Back b1 (some n) _ k hb (hsub k hk)
  | none =>
    obtain ⟨c1, ec, hc⟩ := MemoryStore.Add_returns P s.Cache n
    have hwc1 := MemoryStore.Add_WellKeyed P s.Cache c1 n ec hc hwc
    have hsub1 : ∀ k, (c1.GetID k).has = true → (b1.GetID k).has = true := by
      intro k hk
      rcases MemoryStore.Add_key_cases P s.Cache c1 n ec k hc hk with hold | hnew
      · exact MemoryStore.Add_keeps_key P s.Back b1 (some n) _ k hb (hsub k hold)
      · obtain ⟨key, hkey, hhas⟩ := MemoryStore.Get_after_Add P s.Back b1 n hb
        rw [hnew] at hkey
        cases hkey
        exact hhas
    cases ec with
    | some err =>
      exact ⟨⟨c1, b1⟩, some err, by simp [CacheStore.Add, MemoryStore.asStore, hb, hc],
        hwc1, hwb1, hsub1⟩
    | none =>
      exact ⟨⟨c1, b1⟩, none, by simp [CacheStore.Add, MemoryStore.asStore, hb, hc],
        hwc1, hwb1, hsub1⟩

/-- `CacheStore.Get` on consistent memory tiers returns and leaves them
consistent. -/
theorem CacheStore.Get_consistent {N : Type} [Node N] (P : Primitives)
    (s : CacheStore (MemoryStore N) (MemoryStore N)) (id : QualifiedHash)
    (hinv : s.Consistent P) :
    ∃ s1 r, CacheStore.Get (MemoryStore.asStore P) (MemoryStore.asStore P) s id
        = .returned (s1, r) ∧ s1.Consistent P := by
  have hinv0 := hinv
  obtain ⟨hwc, hwb, hsub⟩ := hinv
  cases hm : Qualified.MarshalString P id with
  | error err =>
    exact ⟨⟨s.Cache, s.Back⟩, ⟨none, false, some err⟩,
      by simp [CacheStore.Get, MemoryStore.asStore, MemoryStore.Get, hm], hinv0⟩
  | ok key =>
    have hgc : s.Cache.Get P id = s.Cache.GetID key := MemoryStore.Get_of_key P _ _ key hm
    have hgb : s.Back.Get P id = s.Back.GetID key := MemoryStore.Get_of_key P _ _ key hm
    by_cases hch : (s.Cache.GetID key).has = true
    · exact ⟨⟨s.Cache, s.Back⟩, ⟨(s.Cache.GetID key).node, true, none⟩, by
        simp [CacheStore.Get, MemoryStore.asStore, hgc, MemoryStore.GetID_err, hch], hinv0⟩
    · by_cases hbh : (s.Back.GetID key).has = true
      · obtain ⟨n, hget, hmn⟩ := MemoryStore.WellKeyed_GetID P s.Back hwb key hbh
        obtain ⟨c2, ec, hc⟩ := MemoryStore.Add_returns P s.Cache n
        have hwc2 := MemoryStore.Add_WellKeyed P s.Cache c2 n ec hc hwc
        have hsub2 : ∀ k, (c2.GetID k).has = true → (s.Back.GetID k).has = true := by
          intro k hk
          rcases MemoryStore.Add_key_cases P s.Cache c2 n ec k hc hk with hold | hnew
          · exact hsub k hold
          · rw [hmn] at hnew
            cases hnew
            exact hbh
        cases ec with
        | some err =>
          exact ⟨⟨c2, s.Back⟩, ⟨none, false, some err⟩, by
            simp [CacheStore.Get, MemoryStore.asStore, hgc, hgb, MemoryStore.GetID_err, hch,
              hget, hc], hwc2, hwb, hsub2⟩
        | none =>
          exact ⟨⟨c2, s.Back⟩, ⟨some n, true, none⟩, by
            simp [CacheStore.Get, MemoryStore.asStore, hgc, hgb, MemoryStore.GetID_err, hch,
              hget, hc], hwc2, hwb, hsub2⟩
      · exact ⟨⟨s.Cache, s.Back⟩, ⟨none, false, none⟩, by
          simp [CacheStore.Get, MemoryStore.asStore, hgc, hgb, MemoryStore.GetID_err, hch, hbh],
          hinv0⟩

/-- A sequence of calls on consistent memory tiers leaves them consistent, and
returns when no call is `Add` of the nil node. -/
theorem CacheStore.run_consistent {N : Type} [Node N] (P : Primitives)
    (calls : List (StoreCall N)) (s : CacheStore (MemoryStore N) (MemoryStore N))
    (hinv : s.Consistent P) :
    (∀ s1, CacheStore.run (MemoryStore.asStore P) (MemoryStore.asStore P) calls s = .returned s1 →
      s1.Consistent P) ∧
    ((∀ node, StoreCall.Add node ∈ calls → node ≠ none) →
      ∃ s1, CacheStore.run (MemoryStore.asStore P) (MemoryStore.asStore P) calls s
        = .returned s1) := by
  induction calls generalizing s with
  | nil =>
    refine ⟨?_, fun _ => ⟨s, rfl⟩⟩
    intro s1 h
    simp only [CacheStore.run, Outcome.returned.injEq] at h
    rw [← h]; exact hinv
  | cons c cs ih =>
    cases c with
    | Add node =>
      cases node with
      | none =>
        refine ⟨?_, ?_⟩
        · intro s1 h
          simp [CacheStore.run, CacheStore.call, CacheStore.Add, MemoryStore.asStore,
            MemoryStore.Add] at h
        · intro hnn
          exact absurd rfl (hnn none (List.mem_cons_self _ _))
      | some n =>
        obtain ⟨s2, e, h2, hinv2⟩ := CacheStore.Add_consistent P s n hinv
        have hrun : CacheStore.run (MemoryStore.asStore P) (MemoryStore.asStore P)
            (StoreCall.Add (some n) :: cs) s
            = CacheStore.run (MemoryStore.asStore P) (MemoryStore.asStore P) cs s2 := by
          simp [CacheStore.run, CacheStore.call, h2]
        rw [hrun]
        exact ⟨(ih s2 hinv2).1, fun hnn =>
          (ih s2 hinv2).2 (fun node hmem => hnn node (List.mem_cons_of_mem _ hmem))⟩
    | Get id =>
      obtain ⟨s2, r, h2, hinv2⟩ := CacheStore.Get_consistent P s id hinv
      have hrun : CacheStore.run (MemoryStore.asStore P) (MemoryStore.asStore P)
          (StoreCall.Get id :: cs) s
          = CacheStore.run (MemoryStore.asStore P) (MemoryStore.asStore P) cs s2 := by
        simp [CacheStore.run, CacheStore.call, h2]
      rw [hrun]
      exact ⟨(ih s2 hinv2).1, fun hnn =>
        (ih s2 hinv2).2 (fun node hmem => hnn node (List.mem_cons_of_mem _ hmem))⟩

/-- C15 as stated fails: over a Back store that holds a node under a key other
than the text of the node's ID, one `Get` through the cache store puts into the
Cache an ID that the Back store does not have. -/
theorem cache_subset_back_counterexample :
    NewCacheStore (MemoryStore.asStore samplePrimitives) (MemoryStore.asStore samplePrimitives)
        (MemoryStore.New : MemoryStore SampleNode) misKeyedStore
        = .returned ⟨some ⟨MemoryStore.New, misKeyedStore⟩, none, MemoryStore.New, misKeyedStore⟩ ∧
      CacheStore.run (MemoryStore.asStore samplePrimitives) (MemoryStore.asStore samplePrimitives)
        [StoreCall.Get sampleNode.id] ⟨MemoryStore.New, misKeyedStore⟩
        = .returned ⟨sampleStore2, misKeyedStore⟩ ∧
      (sampleStore2.Get samplePrimitives sampleNode2.id).has = true ∧
      (misKeyedStore.Get samplePrimitives sampleNode2.id).has = false := by
  decide

/-- C15, amended: for two memory stores in which every entry is a node stored
under the text of its own ID, `NewCacheStore` returns a cache store, and after
every sequence of `Add` and `Get` calls on it that has returned, every key of the
Cache is a key of the Back store and every ID that `Get` finds in the Cache it
finds in the Back store; a sequence without `Add` of the nil node returns. -/
theorem cache_subset_back_invariant {N : Type} [Node N] (P : Primitives)
    (cache back : MemoryStore N) (hc : cache.WellKeyed P) (hb : back.WellKeyed P) :
    ∃ s, NewCacheStore (MemoryStore.asStore P) (MemoryStore.asStore P) cache back
        = .returned ⟨some s, none, s.Cache, s.Back⟩ ∧ s.Cache = cache ∧
      ∀ calls : List (StoreCall N),
        (∀ s1, CacheStore.run (MemoryStore.asStore P) (MemoryStore.asStore P) calls s
            = .returned s1 →
          (∀ k, (s1.Cache.GetID k).has = true → (s1.Back.GetID k).has = true) ∧
          (∀ id, (s1.Cache.Get P id).has = true → (s1.Back.Get P id).has = true)) ∧
        ((∀ node, StoreCall.Add node ∈ calls → node ≠ none) →
          ∃ s1, CacheStore.run (MemoryStore.asStore P) (MemoryStore.asStore P) calls s
            = .returned s1) := by
  obtain ⟨b1, hl, hkeep⟩ := MemoryStore.copyLoop_total P cache.Items back hc
  have hwb1 : b1.WellKeyed P := by
    have hgen : ∀ (items : List (Text × Option N)) (s s1 : MemoryStore N),
        MemoryStore.copyLoop (fun o node => MemoryStore.Add P o node) items s
          = .returned (s1, none) → s.WellKeyed P → s1.WellKeyed P := by
      intro items
      induction items with
      | nil =>
        intro s s1 h hw
        simp only [MemoryStore.copyLoop, Outcome.returned.injEq, Prod.mk.injEq, and_true] at h
        rw [← h]; exact hw
      | cons p rest ih =>
        intro s s1 h hw
        obtain ⟨pk, pv⟩ := p
        simp only [MemoryStore.copyLoop] at h
        cases pv with
        | none => simp [MemoryStore.Add] at h
        | some n =>
          obtain ⟨s2, e, ha⟩ := MemoryStore.Add_returns P s n
          cases e with
          | some err => simp [ha] at h
          | none =>
            simp only [ha] at h
            exact ih s2 s1 h (MemoryStore.Add_WellKeyed P s s2 n none ha hw)
    exact hgen cache.Items back b1 hl hb
  have hsub : ∀ k, (cache.GetID k).has = true → (b1.GetID k).has = true := by
    intro k hk
    obtain ⟨v, hv⟩ := (MemoryStore.GetID_has_iff cache k).mp hk
    obtain ⟨n, hn, hm⟩ := hc k v (MemoryStore.mem_of_lookup _ _ _ hv)
    subst hn
    obtain ⟨key, hkey, hhas⟩ :=
      (MemoryStore.copyLoop_memory P cache.Items back b1 hl).2 k n
        (MemoryStore.mem_of_lookup _ _ _ hv)
    rw [hm] at hkey
    cases hkey
    exact hhas
  have hinv : (⟨cache, b1⟩ : CacheStore (MemoryStore N) (MemoryStore N)).Consistent P :=
    ⟨hc, hwb1, hsub⟩
  refine ⟨⟨cache, b1⟩, by simp [NewCacheStore, MemoryStore.asStore, MemoryStore.CopyInto, hl],
    rfl, ?_⟩
  intro calls
  obtain ⟨hkeeps, htotal⟩ := CacheStore.run_consistent P calls ⟨cache, b1⟩ hinv
  refine ⟨?_, htotal⟩
  intro s1 hrun
  obtain ⟨_, _, hs⟩ := hkeeps s1 hrun
  refine ⟨hs, ?_⟩
  intro id hid
  cases hm : Qualified.MarshalString P id with
  | error err => simp [MemoryStore.Get, hm] at hid
  | ok key =>
    rw [MemoryStore.Get_of_key P _ _ key hm] at hid ⊢
    exact hs key hid

theorem sampleStore_wellKeyed : sampleStore.WellKeyed samplePrimitives := by
  intro k v hmem
  simp only [sampleStore, List.mem_singleton, Prod.mk.injEq] at hmem
  obtain ⟨hk, hv⟩ := hmem
  exact ⟨sampleNode, hv, by rw [hk]; rfl⟩

theorem sampleStore2_wellKeyed : sampleStore2.WellKeyed samplePrimitives := by
  intro k v hmem
  simp only [sampleStore2, List.mem_singleton, Prod.mk.injEq] at hmem
  obtain ⟨hk, hv⟩ := hmem
  exact ⟨sampleNode2, hv, by rw [hk]; rfl⟩

/-- A cache that holds the first sample node over a Back store that holds the
second. -/
theorem cache_subset_back_invariant_witness :
    (sampleStore.WellKeyed samplePrimitives ∧ sampleStore2.WellKeyed samplePrimitives) ∧
    ∃ s, NewCacheStore (MemoryStore.asStore samplePrimitives) (MemoryStore.asStore samplePrimitives)
        sampleStore sampleStore2 = .returned ⟨some s, none, s.Cache, s.Back⟩ ∧
      s.Cache = sampleStore ∧
      ∀ calls : List (StoreCall SampleNode),
        (∀ s1, CacheStore.run (MemoryStore.asStore samplePrimitives)
            (MemoryStore.asStore samplePrimitives) calls s = .returned s1 →
          (∀ k, (s1.Cache.GetID k).has = true → (s1.Back.GetID k).has = true) ∧
          (∀ id, (s1.Cache.Get samplePrimitives id).has = true →
            (s1.Back.Get samplePrimitives id).has = true)) ∧
        ((∀ node, StoreCall.Add node ∈ calls → node ≠ none) →
          ∃ s1, CacheStore.run (MemoryStore.asStore samplePrimitives)
            (MemoryStore.asStore samplePrimitives) calls s = .returned s1) :=
  ⟨⟨sampleStore_wellKeyed, sampleStore2_wellKeyed⟩,
    cache_subset_back_invariant samplePrimitives sampleStore sampleStore2
      sampleStore_wellKeyed sampleStore2_wellKeyed⟩

/-! ## Claims on validation and on the disk store -/

/-- C11: a community freshly produced by `As(identity, signer).NewCommunity(name,
metadata)` validates: `ValidateID` with its own ID and `ValidateSignature` with
the identity both return `(true, nil)`, for a signer that hashes with the hash
function of the library and whose signatures verify under the public key of the
identity. -/
theorem new_community_validates (P : Primitives)
    (hash : Nat → List Byte → Result QualifiedHash)
    (verify : QualifiedKey → QualifiedSignature → List Byte → Except Error Bool)
    (identity : Identity) (signer : Signer) (name metadata : QualifiedContent) (c : Community)
    (hnew : (As identity signer).NewCommunity P name metadata = .ok c)
    (hhash : ∀ payload id, signer.Hash payload = .ok id →
      hash id.Descriptor.Typ payload = .ok id)
    (hsign : ∀ payload signature, signer.Sign payload = .ok signature →
      verify identity.PublicKey signature payload = .ok true) :
    ValidateID P hash c c.ID = .ok true ∧ ValidateSignature P verify c identity = .ok true := by
  obtain ⟨_, _, _, payload, hp, hid, hsig⟩ :=
    Builder.NewCommunity_fields P (As identity signer) name metadata c hnew
  constructor
  · unfold ValidateID
    rw [hp]
    simp only [Community.ID]
    rw [hhash payload c.id hid]
    simp [Qualified.Equals_self]
  · unfold ValidateSignature
    rw [hp]
    simp only []
    rw [hsign payload c.Signature hsig]

/-- The sample community validates with the sample hash and verification. -/
theorem new_community_validates_witness :
    ((As sampleIdentity sampleSigner).NewCommunity samplePrimitives
        ⟨⟨1, 4⟩, [78, 97, 109, 101]⟩ ⟨⟨1, 0⟩, []⟩ = .ok sampleCommunity) ∧
    (ValidateID samplePrimitives sampleHash sampleCommunity sampleCommunity.ID = .ok true ∧
      ValidateSignature samplePrimitives sampleVerify sampleCommunity sampleIdentity = .ok true) :=
  ⟨by decide,
    new_community_validates samplePrimitives sampleHash sampleVerify sampleIdentity sampleSigner
      ⟨⟨1, 4⟩, [78, 97, 109, 101]⟩ ⟨⟨1, 0⟩, []⟩ sampleCommunity (by decide)
      (fun _ _ h => h)
      (fun payload signature h => by simp [sampleVerify, As, h])⟩

/-- C18: the path of a node in a disk store with root `R`, `join` being
`path.Join`: an error when the ID of the node does not marshal to text; otherwise
`join(R, "identities", id)` for an identity, `join(R, "communities", id,
"community")` for a community, `join(R, "communities", community, conversation,
id)` for a reply whose community and conversation IDs marshal to text and an
error when one does not, and an error for any other kind of node.  `GetReply`
reads from the path that `path` gives to a reply with the three IDs. -/
theorem disk_store_path {N : Type} (P : Primitives) (join : List Text → Text)
    (store : DiskStore) (n : NodeValue) :
    (∀ err, Qualified.MarshalString P n.ID = .error err → store.path P join n = .error err) ∧
    (∀ id, Qualified.MarshalString P n.ID = .ok id →
      (∀ v, n = .identity v →
        store.path P join n = .ok (join [store.RootPath, textBytes "identities", id])) ∧
      (∀ v, n = .community v →
        store.path P join n
          = .ok (join [store.RootPath, textBytes "communities", id, textBytes "community"])) ∧
      (∀ v, n = .reply v →
        (∀ community conversation, Qualified.MarshalString P v.CommunityID = .ok community →
          Qualified.MarshalString P v.ConversationID = .ok conversation →
          store.path P join n
            = .ok (join [store.RootPath, textBytes "communities", community, conversation, id])) ∧
        (∀ err, Qualified.MarshalString P v.CommunityID = .error err →
          store.path P join n = .error err) ∧
        (∀ community err, Qualified.MarshalString P v.CommunityID = .ok community →
          Qualified.MarshalString P v.ConversationID = .error err →
          store.path P join n = .error err)) ∧
      (∀ x, n = .otherKind x → ∃ err, store.path P join n = .error err)) ∧
    (∀ (fs : FileSystem) (unmarshal : List Byte → Except Error N) (v : Reply) (p : Text),
      store.path P join (.reply v) = .ok p →
      DiskStore.GetReply P join fs unmarshal store v.CommunityID v.ConversationID v.id =
        match readNodeFromFile fs unmarshal p with
        | .error err => ⟨none, false, some err⟩
        | .ok node => ⟨some node, true, none⟩) := by
  refine ⟨?_, ?_, ?_⟩
  · intro err h
    simp [DiskStore.path, h]
  · intro id hid
    refine ⟨?_, ?_, ?_, ?_⟩
    · intro v hn; subst hn
      simp only [NodeValue.ID] at hid
      simp [DiskStore.path, NodeValue.ID, hid]
    · intro v hn; subst hn
      simp only [NodeValue.ID] at hid
      simp [DiskStore.path, NodeValue.ID, hid]
    · intro v hn; subst hn
      simp only [NodeValue.ID] at hid
      refine ⟨?_, ?_, ?_⟩
      · intro community conversation hc hv
        simp [DiskStore.path, NodeValue.ID, hid, hc, hv]
      · intro err hc
        simp [DiskStore.path, NodeValue.ID, hid, hc]
      · intro community err hc hv
        simp [DiskStore.path, NodeValue.ID, hid, hc, hv]
    · intro x hn; subst hn
      simp only [NodeValue.ID] at hid
      exact ⟨.message "Cannot determine path for node", by
        simp [DiskStore.path, NodeValue.ID, hid]⟩
  · intro fs unmarshal v p hp
    simp only [DiskStore.path, NodeValue.ID] at hp
    cases hid : Qualified.MarshalString P v.id with
    | error err => simp [hid] at hp
    | ok id =>
      cases hc : Qualified.MarshalString P v.CommunityID with
      | error err => simp [hid, hc] at hp
      | ok community =>
        cases hv : Qualified.MarshalString P v.ConversationID with
        | error err => simp [hid, hc, hv] at hp
        | ok conversation =>
          simp only [hid, hc, hv, Except.ok.injEq] at hp
          subst hp
          simp only [DiskStore.GetReply, hid, hc, hv]

/-- The path of the sample reply under the root "r", with "/" between the
elements. -/
theorem disk_store_path_witness :
    Qualified.MarshalString samplePrimitives (NodeValue.reply sampleReply).ID
        = .ok (textBytes "T1_1__" ++ [7]) ∧
    Qualified.MarshalString samplePrimitives sampleReply.CommunityID
        = .ok (textBytes "T1_2__" ++ [3, 4]) ∧
    Qualified.MarshalString samplePrimitives sampleReply.ConversationID
        = .ok (textBytes "T1_2__" ++ [5, 6]) ∧
    DiskStore.path samplePrimitives sampleJoin ⟨textBytes "r"⟩ (.reply sampleReply)
      = .ok (sampleJoin [textBytes "r", textBytes "communities", textBytes "T1_2__" ++ [3, 4],
          textBytes "T1_2__" ++ [5, 6], textBytes "T1_1__" ++ [7]]) :=
  ⟨rfl, rfl, rfl,
    ((disk_store_path (N := NodeValue) samplePrimitives sampleJoin ⟨textBytes "r"⟩
      (.reply sampleReply)).2.1 (textBytes "T1_1__" ++ [7]) rfl).2.2.1 sampleReply rfl |>.1
      (textBytes "T1_2__" ++ [3, 4]) (textBytes "T1_2__" ++ [5, 6]) rfl rfl⟩

/-! ## What a successful UnmarshalBinary has read -/

theorem decodeFixed_lt (bs : List Byte) : decodeFixed bs < 256 ^ bs.length := by
  induction bs using List.reverseRecOn with
  | nil => simp [decodeFixed]
  | append_singleton xs b ih =>
    rw [decodeFixed_snoc, List.length_append, List.length_singleton, pow_succ]
    have hb := b.isLt
    omega

theorem encodeFixed_decodeFixed (bs : List Byte) :
    encodeFixed bs.length (decodeFixed bs) = bs := by
  induction bs using List.reverseRecOn with
  | nil => rfl
  | append_singleton xs b ih =>
    rw [decodeFixed_snoc, List.length_append, List.length_singleton, encodeFixed]
    have hb := b.isLt
    have h1 : (decodeFixed xs * 256 + b.val) / 256 = decodeFixed xs := by omega
    have h2 : (decodeFixed xs * 256 + b.val) % 256 = b.val := by omega
    simp only [h1, h2, ih]

/-- A descriptor that `UnmarshalAll` decoded: the input holds at least a
descriptor, whose bytes are the binary form of the result, the type is in the
enumeration, and the unused bytes are those after the descriptor. -/
theorem Descriptor.UnmarshalAll_ok (P : Primitives) {f : Family} (d0 d : Descriptor f)
    (b unused : ByteSlice)
    (h : UnmarshalAll b d0 (Descriptor.SerializationOrder P f) = .ok (unused, d)) :
    P.sizeofDescriptor ≤ b.len ∧ unused = ⟨b.data.drop P.sizeofDescriptor, b.spare⟩ ∧
      b.data.take P.sizeofDescriptor = d.binaryForm P ∧ d.Encodable P := by
  simp only [Descriptor.SerializationOrder, UnmarshalAll, Descriptor.typeField,
    Descriptor.lengthField, ByteSlice.len, ByteSlice.sliceFrom] at h
  by_cases h1 : b.data.length < P.sizeofgenericType
  · simp [h1] at h
  · by_cases hv : P.validType f (decodeFixed (b.data.take P.sizeofgenericType)) = true
    · have h1' : P.sizeofgenericType ≤ b.data.length := by omega
      simp only [h1, hv, if_false, if_true, h1', List.length_drop] at h
      by_cases h2 : b.data.length - P.sizeofgenericType < P.sizeofContentLength
      · simp [h2] at h
      · have h2' : P.sizeofContentLength ≤ b.data.length - P.sizeofgenericType := by omega
        simp only [h2, h2', if_false, if_true, Result.ok.injEq, Prod.mk.injEq,
          List.drop_drop] at h
        obtain ⟨hu, hd⟩ := h
        have hlt : (b.data.take P.sizeofgenericType).length = P.sizeofgenericType := by
          rw [List.length_take]; omega
        have hll : ((b.data.drop P.sizeofgenericType).take P.sizeofContentLength).length
            = P.sizeofContentLength := by
          rw [List.length_take, List.length_drop]; omega
        refine ⟨by simp only [Primitives.sizeofDescriptor, ByteSlice.len]; omega,
          by rw [← hu]; rfl, ?_, ?_⟩
        · rw [← hd]
          simp only [Descriptor.binaryForm, Primitives.sizeofDescriptor]
          rw [List.take_add]
          have e1 := encodeFixed_decodeFixed (b.data.take P.sizeofgenericType)
          have e2 := encodeFixed_decodeFixed
            ((b.data.drop P.sizeofgenericType).take P.sizeofContentLength)
          rw [hlt] at e1
          rw [hll] at e2
          rw [e1, e2]
        · rw [← hd]
          refine ⟨hv, ?_, ?_⟩
          · have := decodeFixed_lt (b.data.take P.sizeofgenericType)
            rw [hlt] at this
            exact this
          · have := decodeFixed_lt ((b.data.drop P.sizeofgenericType).take P.sizeofContentLength)
            rw [hll] at this
            show decodeFixed ((b.data.drop P.sizeofgenericType).take P.sizeofContentLength)
              ≤ 256 ^ P.sizeofContentLength - 1
            omega
    · simp [h1, hv] at h

/-- A qualified value that `UnmarshalBinary` returned: its descriptor was decoded
from the front of the input, and its blob is what the slice expression
`unused[:q.Descriptor.Length]` gives. -/
theorem Qualified.UnmarshalBinary_ok (P : Primitives) {f : Family} (q0 q : Qualified f)
    (b : ByteSlice) (h : Qualified.UnmarshalBinary P q0 b = .ok q) :
    UnmarshalAll b q0.Descriptor (Descriptor.SerializationOrder P f)
        = .ok (⟨b.data.drop P.sizeofDescriptor, b.spare⟩, q.Descriptor) ∧
      q.Blob = (b.data.drop P.sizeofDescriptor ++ b.spare).take q.Descriptor.Length ∧
      q.Descriptor.Length ≤ (b.data.drop P.sizeofDescriptor).length + b.spare.length := by
  unfold Qualified.UnmarshalBinary at h
  cases hu : UnmarshalAll b q0.Descriptor (Descriptor.SerializationOrder P f) with
  | error e => simp [hu] at h
  | panic => simp [hu] at h
  | ok r =>
    obtain ⟨unused, d⟩ := r
    obtain ⟨_, hun, _, _⟩ := Descriptor.UnmarshalAll_ok P q0.Descriptor d b unused hu
    subst hun
    simp only [hu, ByteSlice.sliceTo, ByteSlice.cap, Qualified.blobField] at h
    by_cases hc : d.Length ≤ (b.data.drop P.sizeofDescriptor).length + b.spare.length
    · simp only [hc, if_true, Result.ok.injEq] at h
      rw [← h]
      exact ⟨rfl, rfl, hc⟩
    · rw [if_neg hc] at h
      cases h

/-- C22: when `UnmarshalBinary(b)` returns nil, the blob of the result has the
length its descriptor declares.  When at least that many bytes follow the
descriptor in `b`, the blob is exactly those bytes and whatever comes after them
is ignored: any input with the same first bytes gives the same value.  When
fewer bytes follow, the blob is the rest of `b` continued by bytes of the backing
array beyond the end of `b`.  Unmarshalling the binary form of a well-formed
value followed by arbitrary extra bytes yields a value equal to it. -/
theorem unmarshal_ok_blob (P : Primitives) (f : Family) (q0 q : Qualified f) (b : ByteSlice)
    (h : Qualified.UnmarshalBinary P q0 b = .ok q) :
    q.Blob.length = q.Descriptor.Length ∧
    (P.sizeofDescriptor + q.Descriptor.Length ≤ b.len →
      q.Blob = (b.data.drop P.sizeofDescriptor).take q.Descriptor.Length ∧
      ∀ (extra spare : List Byte) (q1 : Qualified f), Qualified.UnmarshalBinary P q1
        ⟨b.data.take (P.sizeofDescriptor + q.Descriptor.Length) ++ extra, spare⟩ = .ok q) ∧
    (b.len < P.sizeofDescriptor + q.Descriptor.Length →
      q.Blob = b.data.drop P.sizeofDescriptor ++
        b.spare.take (P.sizeofDescriptor + q.Descriptor.Length - b.len)) ∧
    (∀ (v : Qualified f) (extra spare : List Byte) (q1 : Qualified f), v.WellFormed P →
      ∃ bytes, v.MarshalBinary P = .ok bytes ∧
        ∃ v2, Qualified.UnmarshalBinary P q1 ⟨bytes ++ extra, spare⟩ = .ok v2 ∧
          v.Equals v2 = true) := by
  obtain ⟨hu, hblob, hcap⟩ := Qualified.UnmarshalBinary_ok P q0 q b h
  obtain ⟨hsz, _, hpre, henc⟩ := Descriptor.UnmarshalAll_ok P q0.Descriptor q.Descriptor b _ hu
  have hdl : (b.data.drop P.sizeofDescriptor).length = b.len - P.sizeofDescriptor := by
    simp [ByteSlice.len]
  have hlen : q.Blob.length = q.Descriptor.Length := by
    rw [hblob, List.length_take, List.length_append]
    omega
  refine ⟨hlen, ?_, ?_, ?_⟩
  · intro henough
    have hb2 : q.Blob = (b.data.drop P.sizeofDescriptor).take q.Descriptor.Length := by
      rw [hblob, List.take_append_of_le_length (by rw [hdl]; omega)]
    refine ⟨hb2, ?_⟩
    intro extra spare q1
    have hform : b.data.take (P.sizeofDescriptor + q.Descriptor.Length)
        = q.Descriptor.binaryForm P ++ q.Blob := by
      rw [List.take_add, hpre, ← hb2]
    rw [hform]
    exact Qualified.UnmarshalBinary_binaryForm P q q1 extra spare henc hlen
  · intro hshort
    rw [hblob, List.take_append_eq_append_take,
      List.take_of_length_le (by rw [hdl]; omega), hdl]
    congr 2
    omega
  · intro v extra spare q1 hv
    refine ⟨_, Qualified.MarshalBinary_eq P v, v, ?_, Qualified.Equals_self v⟩
    exact Qualified.UnmarshalBinary_binaryForm P v q1 extra spare hv.2 hv.1

/-- Four input bytes that declare a blob of five, in a backing array of nine: the
call returns nil and the blob holds four bytes from beyond the input. -/
theorem unmarshal_ok_blob_witness :
    (Qualified.UnmarshalBinary samplePrimitives (⟨⟨0, 0⟩, []⟩ : QualifiedContent)
        ⟨[1, 0, 5, 170], [9, 9, 9, 9, 9]⟩ = .ok ⟨⟨1, 5⟩, [170, 9, 9, 9, 9]⟩ ∧
      (ByteSlice.mk [1, 0, 5, 170] [9, 9, 9, 9, 9]).len < samplePrimitives.sizeofDescriptor + 5) ∧
    ([170, 9, 9, 9, 9] : List Byte) = ([1, 0, 5, 170] : List Byte).drop
        samplePrimitives.sizeofDescriptor ++
      ([9, 9, 9, 9, 9] : List Byte).take (samplePrimitives.sizeofDescriptor + 5
        - (ByteSlice.mk [1, 0, 5, 170] [9, 9, 9, 9, 9]).len) :=
  ⟨⟨by decide, by decide⟩,
    (unmarshal_ok_blob samplePrimitives Family.content ⟨⟨0, 0⟩, []⟩ ⟨⟨1, 5⟩, [170, 9, 9, 9, 9]⟩
      ⟨[1, 0, 5, 170], [9, 9, 9, 9, 9]⟩ (by decide)).2.2.1 (by decide)⟩

/-! ## The cache store against its Back tier -/

theorem MemoryStore.GetID_of_lookup {N : Type} (m : MemoryStore N) (k : Text) (v : Option N)
    (h : m.Items.lookup k = some v) : m.GetID k = ⟨v, true, none⟩ := by
  simp [MemoryStore.GetID, h]

theorem MemoryStore.lookup_of_GetID_miss {N : Type} (m : MemoryStore N) (k : Text)
    (h : (m.GetID k).has = false) : m.Items.lookup k = none ∧ m.GetID k = ⟨none, false, none⟩ := by
  unfold MemoryStore.GetID at h ⊢
  cases hl : m.Items.lookup k with
  | none => simp
  | some v => simp [hl] at h

/-- Assigning to the smaller store an entry that the larger store holds keeps the
sub-map. -/
theorem MemoryStore.SubMap_assign_left {N : Type} (c b : MemoryStore N) (k : Text)
    (v : Option N) (hsub : c.SubMap b) (hb : b.Items.lookup k = some v) :
    MemoryStore.SubMap ⟨MemoryStore.assign c.Items k v⟩ b := by
  intro k2 v2 h2
  by_cases hk : k2 = k
  · subst hk
    have h3 : (MemoryStore.assign c.Items k2 v).lookup k2 = some v2 := h2
    rw [MemoryStore.lookup_assign_self] at h3
    cases h3
    exact hb
  · have h3 : (MemoryStore.assign c.Items k v).lookup k2 = some v2 := h2
    rw [MemoryStore.lookup_assign_ne _ _ _ _ hk] at h3
    exact hsub k2 v2 h3

/-- Assigning the same entry to both stores keeps the sub-map. -/
theorem MemoryStore.SubMap_assign_both {N : Type} (c b : MemoryStore N) (k : Text)
    (v : Option N) (hsub : c.SubMap b) :
    MemoryStore.SubMap ⟨MemoryStore.assign c.Items k v⟩ ⟨MemoryStore.assign b.Items k v⟩ := by
  intro k2 v2 h2
  have h3 : (MemoryStore.assign c.Items k v).lookup k2 = some v2 := h2
  show (MemoryStore.assign b.Items k v).lookup k2 = some v2
  by_cases hk : k2 = k
  · subst hk
    rw [MemoryStore.lookup_assign_self] at h3 ⊢
    exact h3
  · rw [MemoryStore.lookup_assign_ne _ _ _ _ hk] at h3 ⊢
    exact hsub k2 v2 h3

/-- `CacheStore.Get` over a well-keyed Back store that contains the Cache answers
as the Back store does, leaves the Back store as it was and the Cache a sub-map
of it. -/
theorem CacheStore.Get_refines {N : Type} [Node N] (P : Primitives)
    (m : CacheStore (MemoryStore N) (MemoryStore N)) (id : QualifiedHash)
    (hsub : m.Cache.SubMap m.Back) (hwb : m.Back.WellKeyed P) :
    ∃ m1, CacheStore.Get (MemoryStore.asStore P) (MemoryStore.asStore P) m id
        = .returned (m1, m.Back.Get P id) ∧ m1.Back = m.Back ∧ m1.Cache.SubMap m1.Back := by
  cases hm : Qualified.MarshalString P id with
  | error err =>
    exact ⟨⟨m.Cache, m.Back⟩,
      by simp [CacheStore.Get, MemoryStore.asStore, MemoryStore.Get, hm], rfl, hsub⟩
  | ok key =>
    have hgc : m.Cache.Get P id = m.Cache.GetID key := MemoryStore.Get_of_key P _ _ key hm
    have hgb : m.Back.Get P id = m.Back.GetID key := MemoryStore.Get_of_key P _ _ key hm
    by_cases hch : (m.Cache.GetID key).has = true
    · obtain ⟨v, hv⟩ := (MemoryStore.GetID_has_iff m.Cache key).mp hch
      have hc := MemoryStore.GetID_of_lookup m.Cache key v hv
      have hb := MemoryStore.GetID_of_lookup m.Back key v (hsub key v hv)
      exact ⟨⟨m.Cache, m.Back⟩,
        by simp [CacheStore.Get, MemoryStore.asStore, hgc, hgb, hc, hb], rfl, hsub⟩
    · have hcm : (m.Cache.GetID key).has = false := by simpa using hch
      obtain ⟨hcl, hc⟩ := MemoryStore.lookup_of_GetID_miss m.Cache key hcm
      by_cases hbh : (m.Back.GetID key).has = true
      · obtain ⟨n, hget, hmn⟩ := MemoryStore.WellKeyed_GetID P m.Back hwb key hbh
        obtain ⟨v, hv⟩ := (MemoryStore.GetID_has_iff m.Back key).mp hbh
        have hv2 := MemoryStore.GetID_of_lookup m.Back key v hv
        rw [hget] at hv2
        have hvn : v = some n := by
          have := congrArg GetResult.node hv2
          exact this.symm
        subst hvn
        have hadd : MemoryStore.Add P m.Cache (some n)
            = .returned (⟨MemoryStore.assign m.Cache.Items key (some n)⟩, none) := by
          simp [MemoryStore.Add, hmn, MemoryStore.AddID, hcm]
        exact ⟨⟨⟨MemoryStore.assign m.Cache.Items key (some n)⟩, m.Back⟩,
          by simp [CacheStore.Get, MemoryStore.asStore, hgc, hgb, hc, hget, hadd], rfl,
          MemoryStore.SubMap_assign_left m.Cache m.Back key (some n) hsub hv⟩
      · have hbm : (m.Back.GetID key).has = false := by simpa using hbh
        obtain ⟨_, hb⟩ := MemoryStore.lookup_of_GetID_miss m.Back key hbm
        exact ⟨⟨m.Cache, m.Back⟩,
          by simp [CacheStore.Get, MemoryStore.asStore, hgc, hgb, hc, hb], rfl, hsub⟩

/-- `CacheStore.Add` of a node keeps the Cache a sub-map of the Back store when
the Back store holds no other node under the text of the node's ID. -/
theorem CacheStore.Add_refines {N : Type} [Node N] (P : Primitives)
    (m : CacheStore (MemoryStore N) (MemoryStore N)) (y : N)
    (hsub : m.Cache.SubMap m.Back)
    (hsame : ∀ key z, Qualified.MarshalString P (Node.ID y) = .ok key →
      m.Back.Items.lookup key = some z → z = some y) :
    ∃ m1 e, CacheStore.Add (MemoryStore.asStore P) (MemoryStore.asStore P) m (some y)
        = .returned (m1, e) ∧ m1.Cache.SubMap m1.Back := by
  cases hm : Qualified.MarshalString P (Node.ID y) with
  | error err =>
    exact ⟨⟨m.Cache, m.Back⟩, some err,
      by simp [CacheStore.Add, MemoryStore.asStore, MemoryStore.Add, hm], hsub⟩
  | ok key =>
    by_cases hbh : (m.Back.GetID key).has = true
    · obtain ⟨z, hz⟩ := (MemoryStore.GetID_has_iff m.Back key).mp hbh
      have hzy := hsame key z hm hz
      subst hzy
      have hb : MemoryStore.Add P m.Back (some y) = .returned (m.Back, none) := by
        simp [MemoryStore.Add, hm, MemoryStore.AddID, hbh]
      by_cases hch : (m.Cache.GetID key).has = true
      · have hc : MemoryStore.Add P m.Cache (some y) = .returned (m.Cache, none) := by
          simp [MemoryStore.Add, hm, MemoryStore.AddID, hch]
        exact ⟨⟨m.Cache, m.Back⟩, none,
          by simp only [CacheStore.Add, MemoryStore.asStore, hb, hc], hsub⟩
      · have hcm : (m.Cache.GetID key).has = false := by simpa using hch
        have hc : MemoryStore.Add P m.Cache (some y)
            = .returned (⟨MemoryStore.assign m.Cache.Items key (some y)⟩, none) := by
          simp [MemoryStore.Add, hm, MemoryStore.AddID, hcm]
        exact ⟨⟨⟨MemoryStore.assign m.Cache.Items key (some y)⟩, m.Back⟩, none,
          by simp only [CacheStore.Add, MemoryStore.asStore, hb, hc],
          MemoryStore.SubMap_assign_left m.Cache m.Back key (some y) hsub hz⟩
    · have hbm : (m.Back.GetID key).has = false := by simpa using hbh
      have hcm : (m.Cache.GetID key).has = false := by
        cases hc : (m.Cache.GetID key).has with
        | false => rfl
        | true =>
          obtain ⟨v, hv⟩ := (MemoryStore.GetID_has_iff m.Cache key).mp hc
          have := (MemoryStore.GetID_has_iff m.Back key).mpr ⟨v, hsub key v hv⟩
          rw [hbm] at this
          cases this
      exact ⟨⟨⟨MemoryStore.assign m.Cache.Items key (some y)⟩,
          ⟨MemoryStore.assign m.Back.Items key (some y)⟩⟩, none,
        by simp [CacheStore.Add, MemoryStore.asStore, MemoryStore.Add, hm, MemoryStore.AddID,
          hbm, hcm],
        MemoryStore.SubMap_assign_both m.Cache m.Back key (some y) hsub⟩

theorem MemoryStore.SubMap_New {N : Type} (b : MemoryStore N) :
    (MemoryStore.New : MemoryStore N).SubMap b := by
  intro k v h
  simp [MemoryStore.New] at h

/-- C21 as stated fails, in two ways.  `CacheStore.Add` of a node that has the ID of
another node held by the Back store leaves the Back store as it is and puts the
new node into the Cache, which is then not a sub-map of the Back store, and `Get`
of that ID answers with the node of the Cache, not with that of the Back store.
And over a Back store that holds a node under a key other than the text of its
ID, `Get` adds that node to the Cache under a key the Back store does not
have. -/
theorem cache_refines_back_counterexample :
    ((MemoryStore.New : MemoryStore SampleNode).SubMap sampleStore ∧
      CacheStore.Add (MemoryStore.asStore samplePrimitives) (MemoryStore.asStore samplePrimitives)
        ⟨MemoryStore.New, sampleStore⟩ (some sampleNodeTwin)
        = .returned (⟨twinStore, sampleStore⟩, none) ∧
      ¬ twinStore.SubMap sampleStore ∧
      CacheStore.Get (MemoryStore.asStore samplePrimitives) (MemoryStore.asStore samplePrimitives)
        ⟨twinStore, sampleStore⟩ sampleNode.id
        = .returned (⟨twinStore, sampleStore⟩, ⟨some sampleNodeTwin, true, none⟩) ∧
      sampleStore.Get samplePrimitives sampleNode.id = ⟨some sampleNode, true, none⟩) ∧
    ((MemoryStore.New : MemoryStore SampleNode).SubMap misKeyedStore ∧
      CacheStore.Get (MemoryStore.asStore samplePrimitives) (MemoryStore.asStore samplePrimitives)
        ⟨MemoryStore.New, misKeyedStore⟩ sampleNode.id
        = .returned (⟨sampleStore2, misKeyedStore⟩, ⟨some sampleNode2, true, none⟩) ∧
      ¬ sampleStore2.SubMap misKeyedStore) := by
  refine ⟨⟨MemoryStore.SubMap_New _, by decide, ?_, by decide, by decide⟩,
    ⟨MemoryStore.SubMap_New _, by decide, ?_⟩⟩
  · intro h
    have h2 := h (textBytes "T1_2__" ++ [3, 4]) (some sampleNodeTwin) (by decide)
    revert h2
    decide
  · intro h
    have h2 := h (textBytes "T1_2__" ++ [5, 6]) (some sampleNode2) (by decide)
    revert h2
    decide

/-- C21, amended: for a cache store over two memory stores in which every entry
of the Cache is an entry of the Back store and every entry of the Back store is a
node stored under the text of its own ID, `CacheStore.Get(id)` returns what
`Back.Get(id)` returns, for every `id`, leaves the Back store unchanged and the
Cache a sub-map of it; and `CacheStore.Add(Y)` keeps the Cache a sub-map of the
Back store when the Back store holds no node other than `Y` under the text of the
ID of `Y`. -/
theorem cache_store_refines_back {N : Type} [Node N] (P : Primitives)
    (m : CacheStore (MemoryStore N) (MemoryStore N))
    (hsub : m.Cache.SubMap m.Back) (hwb : m.Back.WellKeyed P) :
    (∀ id, ∃ m1, CacheStore.Get (MemoryStore.asStore P) (MemoryStore.asStore P) m id
        = .returned (m1, m.Back.Get P id) ∧ m1.Back = m.Back ∧ m1.Cache.SubMap m1.Back) ∧
    (∀ y : N,
      (∀ key z, Qualified.MarshalString P (Node.ID y) = .ok key →
        m.Back.Items.lookup key = some z → z = some y) →
      ∃ m1 e, CacheStore.Add (MemoryStore.asStore P) (MemoryStore.asStore P) m (some y)
          = .returned (m1, e) ∧ m1.Cache.SubMap m1.Back) :=
  ⟨fun id => CacheStore.Get_refines P m id hsub hwb,
    fun y hsame => CacheStore.Add_refines P m y hsub hsame⟩

/-- An empty Cache over the Back store that holds the sample node. -/
theorem cache_store_refines_back_witness :
    ((MemoryStore.New : MemoryStore SampleNode).SubMap sampleStore ∧
      sampleStore.WellKeyed samplePrimitives) ∧
    ((∀ id, ∃ m1, CacheStore.Get (MemoryStore.asStore samplePrimitives)
          (MemoryStore.asStore samplePrimitives) ⟨MemoryStore.New, sampleStore⟩ id
          = .returned (m1, sampleStore.Get samplePrimitives id) ∧ m1.Back = sampleStore ∧
          m1.Cache.SubMap m1.Back) ∧
      (∀ y : SampleNode,
        (∀ key z, Qualified.MarshalString samplePrimitives (Node.ID y) = .ok key →
          sampleStore.Items.lookup key = some z → z = some y) →
        ∃ m1 e, CacheStore.Add (MemoryStore.asStore samplePrimitives)
            (MemoryStore.asStore samplePrimitives) ⟨MemoryStore.New, sampleStore⟩ (some y)
            = .returned (m1, e) ∧ m1.Cache.SubMap m1.Back)) :=
  ⟨⟨MemoryStore.SubMap_New _, sampleStore_wellKeyed⟩,
    cache_store_refines_back samplePrimitives ⟨MemoryStore.New, sampleStore⟩
      (MemoryStore.SubMap_New _) sampleStore_wellKeyed⟩

/-! ## Counterexamples to the read-through hit and to the community round trip -/

/-- C5 as stated fails in its parenthesis: over an empty Cache and a Back store
that holds a node under a key other than the text of the node's ID, `Get` of the
ID of that key misses the Cache, hits the Back store, adds the node to the Cache
and returns it with found=true, and the following `Cache.Get` of the same ID
misses. -/
theorem cache_get_following_miss_counterexample :
    CacheStore.Get (MemoryStore.asStore samplePrimitives) (MemoryStore.asStore samplePrimitives)
        ⟨MemoryStore.New, misKeyedStore⟩ sampleNode.id
        = .returned (⟨sampleStore2, misKeyedStore⟩, ⟨some sampleNode2, true, none⟩) ∧
      sampleStore2.Get samplePrimitives sampleNode.id = ⟨none, false, none⟩ := by
  decide

/-- C9 as stated fails: `NewCommunity` assembles the fields it is given without
checking them; for a name whose content type is outside the enumeration it
returns a community that marshals without error, and `UnmarshalCommunity` of
those bytes returns an error. -/
theorem community_roundtrip_counterexample :
    (As sampleIdentity sampleSigner).NewCommunity samplePrimitives ⟨⟨9, 0⟩, []⟩ ⟨⟨1, 0⟩, []⟩
        = .ok ⟨⟨⟨9, 0⟩, []⟩, ⟨⟨1, 0⟩, []⟩, ⟨⟨1, 2⟩, [9, 9]⟩, ⟨⟨1, 2⟩, [11, 31]⟩,
            ⟨⟨1, 4⟩, [9, 0, 0, 1]⟩⟩ ∧
      Community.MarshalBinary samplePrimitives
          ⟨⟨⟨9, 0⟩, []⟩, ⟨⟨1, 0⟩, []⟩, ⟨⟨1, 2⟩, [9, 9]⟩, ⟨⟨1, 2⟩, [11, 31]⟩,
            ⟨⟨1, 4⟩, [9, 0, 0, 1]⟩⟩
        = .ok [9, 0, 0, 1, 0, 0, 1, 0, 2, 9, 9, 1, 0, 2, 11, 31, 1, 0, 4, 9, 0, 0, 1] ∧
      UnmarshalCommunity samplePrimitives
          ⟨[9, 0, 0, 1, 0, 0, 1, 0, 2, 9, 9, 1, 0, 2, 11, 31, 1, 0, 4, 9, 0, 0, 1], []⟩
        = .error (.unrecognizedType 9) := by
  decide

end Forest
